import Mathlib

/-!
Verification development for the validate-address repository.

The repository contains two implementations of the same address
validation engine: a Go variant (`validator.go`, embedded in the
repository README) and a TypeScript variant (`addressValidator.ts`).
Both are pure string pipelines, shallowly embedded here over
`Str := List Char`.  Strings are ASCII in every behaviour the engine
exercises (the Go cleaner strips every non-ASCII character and both
implementations upper/lower-case only ASCII letters in the ranges the
lookup tables use), so character case maps are modelled by the ASCII
letter table below.
-/

set_option allowUnsafeReducibility true
set_option maxRecDepth 200000

attribute [local semireducible] Rat.add Rat.sub Rat.mul Rat.div Rat.inv

namespace AV

/-- A string, modelled as its list of characters. -/
abbrev Str := List Char

/-- ASCII whitespace as `unicode.IsSpace` / JS `trim` recognise it
(space, tab, newline, vertical tab, form feed, carriage return). -/
def isSpaceChar (c : Char) : Bool :=
  c = ' ' || c = '\t' || c = '\n' || c = '\r' || c = '\x0b' || c = '\x0c'

/-- Whitespace as the RE2 class `\s` used by the Go regexes:
`[\t\n\f\r ]` (no vertical tab). -/
def reSpace (c : Char) : Bool :=
  c = ' ' || c = '\t' || c = '\n' || c = '\r' || c = '\x0c'

/-- ASCII digit. -/
def isDigitChar (c : Char) : Bool :=
  '0' ≤ c && c ≤ '9'

/-- ASCII letter. -/
def isAlphaChar (c : Char) : Bool :=
  ('A' ≤ c && c ≤ 'Z') || ('a' ≤ c && c ≤ 'z')

/-- The regex class `\w`: ASCII letters, digits and underscore. -/
def isWordChar (c : Char) : Bool :=
  isAlphaChar c || isDigitChar c || c = '_'

/-- The 26 ASCII letter pairs (upper, lower): the case map both
implementations rely on. -/
def caseTable : List (Char × Char) :=
  [('A', 'a'), ('B', 'b'), ('C', 'c'), ('D', 'd'), ('E', 'e'), ('F', 'f'),
   ('G', 'g'), ('H', 'h'), ('I', 'i'), ('J', 'j'), ('K', 'k'), ('L', 'l'),
   ('M', 'm'), ('N', 'n'), ('O', 'o'), ('P', 'p'), ('Q', 'q'), ('R', 'r'),
   ('S', 's'), ('T', 't'), ('U', 'u'), ('V', 'v'), ('W', 'w'), ('X', 'x'),
   ('Y', 'y'), ('Z', 'z')]

/-- Lower-case an ASCII letter; every other character is unchanged. -/
def toLowerChar (c : Char) : Char :=
  match caseTable.find? (fun p => p.1 == c) with
  | some p => p.2
  | none => c

/-- Upper-case an ASCII letter; every other character is unchanged. -/
def toUpperChar (c : Char) : Char :=
  match caseTable.find? (fun p => p.2 == c) with
  | some p => p.1
  | none => c

/-- `strings.ToLower` / `String.prototype.toLowerCase` (ASCII model). -/
def toLowerStr (s : Str) : Str := s.map toLowerChar

/-- `strings.ToUpper` / `String.prototype.toUpperCase` (ASCII model). -/
def toUpperStr (s : Str) : Str := s.map toUpperChar

/-- `strings.TrimSpace` / `String.prototype.trim`. -/
def trimStr (s : Str) : Str :=
  ((s.dropWhile isSpaceChar).reverse.dropWhile isSpaceChar).reverse

/-- Helper for `collapseWS`: `inRun` records whether the previous
character was whitespace (the run already emitted its single space). -/
def collapseWSAux (p : Char → Bool) : Bool → Str → Str
  | _, [] => []
  | inRun, c :: t =>
    if p c then
      if inRun then collapseWSAux p true t else ' ' :: collapseWSAux p true t
    else c :: collapseWSAux p false t

/-- Replace every maximal run of `p`-characters by a single space:
the `\s+` → `" "` regex replacement both implementations perform. -/
def collapseWS (p : Char → Bool) (s : Str) : Str :=
  collapseWSAux p false s

/-- Split at separator characters, keeping empty segments
(JS `String.prototype.split` with a one-character separator). -/
def splitBy (p : Char → Bool) : Str → List Str
  | [] => [[]]
  | c :: t =>
    match splitBy p t with
    | [] => [[]]
    | w :: ws => if p c then [] :: w :: ws else (c :: w) :: ws

/-- Maximal runs of non-separator characters: `strings.Fields` (with
`isSpaceChar`), and JS `split(' ').filter(p => p.length > 0)` (with
`(· == ' ')`). -/
def fieldsBy (p : Char → Bool) (s : Str) : List Str :=
  (splitBy p s).filter (fun w => w ≠ [])

/-- Split into maximal runs of word characters and non-word characters
(the granularity at which `\b`-delimited whole-word regex replacement
operates). -/
def splitRuns : Str → List Str
  | [] => []
  | c :: t =>
    match splitRuns t with
    | (d :: w) :: ws =>
      if isWordChar c == isWordChar d then (c :: d :: w) :: ws
      else [c] :: (d :: w) :: ws
    | _ => [[c]]

/-- `strings.Join` / `Array.prototype.join` with a separator. -/
def joinWithSep (sep : Str) : List Str → Str
  | [] => []
  | [w] => w
  | w :: x :: rest => w ++ sep ++ joinWithSep sep (x :: rest)

/-- Join with a single space. -/
def joinSpace (ws : List Str) : Str := joinWithSep [' '] ws

/-- Case-insensitive string equality: `strings.EqualFold`
(ASCII model). -/
def eqFold (a b : Str) : Bool := toLowerStr a == toLowerStr b

/-- Association-list lookup by exact first component: the model of a
Go `map[string]string` index / JS object property access. -/
def lookupAssoc (table : List (Str × Str)) (key : Str) : Option Str :=
  match table.find? (fun p => p.1 == key) with
  | some p => some p.2
  | none => none

/-- First index satisfying a predicate (the Go `for ... range` scan
with `break`). -/
def findIdxOpt (p : α → Bool) : List α → Option Nat
  | [] => none
  | a :: t => if p a then some 0 else (findIdxOpt p t).map (· + 1)

/-- First index from the right satisfying a predicate (the Go
`for i := len-1; i >= 0; i--` scan with `break`). -/
def findIdxFromRight (p : α → Bool) (l : List α) : Option Nat :=
  match findIdxOpt p l.reverse with
  | some j => some (l.length - 1 - j)
  | none => none

/-!
A small backtracking regex engine, sufficient for the two anchored
patterns of `validator.go`.  Go's `regexp` package gives Perl-style
(leftmost, not POSIX-longest) submatch semantics, which is exactly what
ordered backtracking computes.  Every quantifier in the two source
patterns sits over a single character class, so the engine only needs
class quantifiers; both patterns are anchored `^...$`, so matching the
whole string models `FindStringSubmatch`.
-/

/-- Regular expressions as the two source patterns need them. -/
inductive RE where
  /-- One character from a class. -/
  | cls (p : Char → Bool)
  /-- A case-insensitive literal (the patterns carry the `(?i)` flag). -/
  | litCI (cs : Str)
  | seq (a b : RE)
  /-- Alternation, tried left to right. -/
  | alt (a b : RE)
  /-- Greedy `?`. -/
  | opt (a : RE)
  /-- `*` (greedy) or `*?` (lazy) over a class. -/
  | starCls (greedy : Bool) (p : Char → Bool)
  /-- `+` (greedy) or `+?` (lazy) over a class. -/
  | plusCls (greedy : Bool) (p : Char → Bool)
  /-- An exact repetition of a class. -/
  | repCls (n : Nat) (p : Char → Bool)
  /-- A numbered capture group. -/
  | grp (i : Nat) (a : RE)

/-- Captures: most recent binding first. -/
abbrev Caps := List (Nat × Str)

/-- Case-insensitive literal match, returning the rest of the input. -/
def matchCI : Str → Str → Option Str
  | [], s => some s
  | _ :: _, [] => none
  | c :: ct, d :: dt =>
    if toLowerChar c == toLowerChar d then matchCI ct dt else none

/-- Try each candidate number of characters to consume, in order. -/
def tryCands (s : Str) (caps : Caps) (k : Str → Caps → Option Caps) :
    List Nat → Option Caps
  | [] => none
  | n :: rest =>
    match k (s.drop n) caps with
    | some r => some r
    | none => tryCands s caps k rest

/-- The backtracking matcher in continuation-passing style. -/
def reMatch : RE → Str → Caps → (Str → Caps → Option Caps) → Option Caps
  | .cls p, s, caps, k =>
    match s with
    | [] => none
    | c :: t => if p c then k t caps else none
  | .litCI cs, s, caps, k =>
    match matchCI cs s with
    | some rest => k rest caps
    | none => none
  | .seq a b, s, caps, k => reMatch a s caps (fun s2 c2 => reMatch b s2 c2 k)
  | .alt a b, s, caps, k =>
    match reMatch a s caps k with
    | some r => some r
    | none => reMatch b s caps k
  | .opt a, s, caps, k =>
    match reMatch a s caps k with
    | some r => some r
    | none => k s caps
  | .starCls g p, s, caps, k =>
    let m := (s.takeWhile p).length
    tryCands s caps k (if g then (List.range (m + 1)).reverse else List.range (m + 1))
  | .plusCls g p, s, caps, k =>
    let m := (s.takeWhile p).length
    tryCands s caps k (if g then (List.range' 1 m).reverse else List.range' 1 m)
  | .repCls n p, s, caps, k =>
    if (s.take n).length = n ∧ (s.take n).all p then k (s.drop n) caps else none
  | .grp i a, s, caps, k =>
    reMatch a s caps (fun s2 c2 => k s2 ((i, s.take (s.length - s2.length)) :: c2))

/-- Match the whole input (the source patterns are anchored `^...$`). -/
def reFullMatch (r : RE) (s : Str) : Option Caps :=
  reMatch r s [] (fun rest caps => if rest.isEmpty then some caps else none)

/-- Group text: `""` for a group that did not participate, as
`FindStringSubmatch` reports it. -/
def capGet (caps : Caps) (i : Nat) : Str :=
  match caps.find? (fun p => p.1 == i) with
  | some p => p.2
  | none => []

/-- Sequence a list of regexes. -/
def seqAll : List RE → RE
  | [] => .litCI []
  | [r] => r
  | r :: x :: rest => .seq r (seqAll (x :: rest))

/-- Alternation over a list, tried left to right. -/
def altAll : List RE → RE
  | [] => .cls (fun _ => false)
  | [r] => r
  | r :: x :: rest => .alt r (altAll (x :: rest))

/-- The class `[^,]`. -/
def notComma (c : Char) : Bool := c != ','

/-!
The Go implementation (`validator.go`).
-/

/-- `ValidatedAddress` (models.go).  Absent components are the empty
string, as in Go.  `fullAddress` is set by the standardizer. -/
structure GoAddr where
  streetNumber : Str := []
  streetName : Str := []
  unit : Str := []
  city : Str := []
  state : Str := []
  zipCode : Str := []
  zipPlus4 : Str := []
  county : Str := []
  fullAddress : Str := []
deriving DecidableEq, Repr

/-- `getStateAbbreviations`: the 51-entry (code, full name) table. -/
def stateTablePairs : List (String × String) :=
  [("AL", "Alabama"), ("AK", "Alaska"), ("AZ", "Arizona"), ("AR", "Arkansas"),
   ("CA", "California"), ("CO", "Colorado"), ("CT", "Connecticut"),
   ("DE", "Delaware"), ("FL", "Florida"), ("GA", "Georgia"), ("HI", "Hawaii"),
   ("ID", "Idaho"), ("IL", "Illinois"), ("IN", "Indiana"), ("IA", "Iowa"),
   ("KS", "Kansas"), ("KY", "Kentucky"), ("LA", "Louisiana"), ("ME", "Maine"),
   ("MD", "Maryland"), ("MA", "Massachusetts"), ("MI", "Michigan"),
   ("MN", "Minnesota"), ("MS", "Mississippi"), ("MO", "Missouri"),
   ("MT", "Montana"), ("NE", "Nebraska"), ("NV", "Nevada"),
   ("NH", "New Hampshire"), ("NJ", "New Jersey"), ("NM", "New Mexico"),
   ("NY", "New York"), ("NC", "North Carolina"), ("ND", "North Dakota"),
   ("OH", "Ohio"), ("OK", "Oklahoma"), ("OR", "Oregon"),
   ("PA", "Pennsylvania"), ("RI", "Rhode Island"), ("SC", "South Carolina"),
   ("SD", "South Dakota"), ("TN", "Tennessee"), ("TX", "Texas"),
   ("UT", "Utah"), ("VT", "Vermont"), ("VA", "Virginia"),
   ("WA", "Washington"), ("WV", "West Virginia"), ("WI", "Wisconsin"),
   ("WY", "Wyoming"), ("DC", "District of Columbia")]

/-- `stateAbbreviations` as character lists. -/
def stateTable : List (Str × Str) :=
  stateTablePairs.map (fun p => (p.1.toList, p.2.toList))

/-- `getStreetSuffixes`. -/
def suffixTable : List (Str × Str) :=
  ([("St", "Street"), ("Ave", "Avenue"), ("Blvd", "Boulevard"),
    ("Rd", "Road"), ("Dr", "Drive"), ("Ct", "Court"), ("Ln", "Lane"),
    ("Pl", "Place"), ("Pkwy", "Parkway"), ("Cir", "Circle"),
    ("Way", "Way"), ("Trl", "Trail"), ("Ter", "Terrace")]
    : List (String × String)).map (fun p => (p.1.toList, p.2.toList))

/-- `getCommonMisspellings`. -/
def misspellTable : List (Str × Str) :=
  ([("Steet", "Street"), ("Streat", "Street"), ("Streeet", "Street"),
    ("Avenu", "Avenue"), ("Aveune", "Avenue"), ("Blvd", "Boulevard"),
    ("Rd", "Road"), ("Dr", "Drive"), ("Ct", "Court"), ("Ln", "Lane"),
    ("Pl", "Place"), ("Pkwy", "Parkway")]
    : List (String × String)).map (fun p => (p.1.toList, p.2.toList))

/-- Status constants (models.go). -/
def statusValid : Str := "valid".toList

/-- Status constant `corrected`. -/
def statusCorrected : Str := "corrected".toList

/-- Status constant `unverifiable`. -/
def statusUnverifiable : Str := "unverifiable".toList

/-- Characters `cleanAddress` keeps: the regex `[^\w\s\-\.#/,]` deletes
everything else. -/
def isAllowedGoChar (c : Char) : Bool :=
  isWordChar c || reSpace c || c = '-' || c = '.' || c = '#' || c = '/' || c = ','

/-- `cleanAddress`. -/
def cleanAddress (address : Str) : Str :=
  if address.length > 500 then [] else
  let a1 := trimStr address
  if a1 = [] then [] else
  let a2 := collapseWS reSpace a1
  let a3 := a2.filter isAllowedGoChar
  if (trimStr a3).length < 5 then [] else a3

/-- `isState`. -/
def isStateTok (s : Str) : Bool :=
  let u := toUpperStr (trimStr s)
  (lookupAssoc stateTable u).isSome || stateTable.any (fun p => eqFold u p.2)

/-- `isZipCode`: the anchored regex `^\d{5}(-\d{4})?$`. -/
def isZipCode (s : Str) : Bool :=
  (s.take 5).length = 5 && (s.take 5).all isDigitChar &&
    (s.drop 5 = [] ||
      ((s.drop 5).length = 5 && (s.drop 5).take 1 = ['-'] &&
        ((s.drop 5).drop 1).all isDigitChar))

/-- `isValidState`. -/
def isValidState (s : Str) : Bool :=
  (lookupAssoc stateTable (toUpperStr s)).isSome

/-- `isValidZipCode`. -/
def isValidZipCode (s : Str) : Bool := isZipCode s

/-- The first pattern of `parseAddress`:
`(?i)^(\d+)\s+([^,]+?)(?:\s+(apt|apartment|unit|ste|suite|#)\s*([^,]+?))?\s*,?\s*([^,]+?)\s*,?\s*([a-z]{2})\s+(\d{5})(?:-(\d{4}))?$`. -/
def goPattern1 : RE :=
  seqAll
    [.grp 1 (.plusCls true isDigitChar),
     .plusCls true reSpace,
     .grp 2 (.plusCls false notComma),
     .opt (seqAll
       [.plusCls true reSpace,
        .grp 3 (altAll
          (["apt", "apartment", "unit", "ste", "suite", "#"].map
            (fun w => RE.litCI w.toList))),
        .starCls true reSpace,
        .grp 4 (.plusCls false notComma)]),
     .starCls true reSpace, .opt (.cls (· == ',')), .starCls true reSpace,
     .grp 5 (.plusCls false notComma),
     .starCls true reSpace, .opt (.cls (· == ',')), .starCls true reSpace,
     .grp 6 (.repCls 2 isAlphaChar),
     .plusCls true reSpace,
     .grp 7 (.repCls 5 isDigitChar),
     .opt (.seq (.cls (· == '-')) (.grp 8 (.repCls 4 isDigitChar)))]

/-- The second pattern of `parseAddress`:
`(?i)^(\d+)\s+([^,]+?)\s*,?\s*([^,]+?)\s*,?\s*([a-z]{2})\s+(\d{5})(?:-(\d{4}))?$`. -/
def goPattern2 : RE :=
  seqAll
    [.grp 1 (.plusCls true isDigitChar),
     .plusCls true reSpace,
     .grp 2 (.plusCls false notComma),
     .starCls true reSpace, .opt (.cls (· == ',')), .starCls true reSpace,
     .grp 3 (.plusCls false notComma),
     .starCls true reSpace, .opt (.cls (· == ',')), .starCls true reSpace,
     .grp 4 (.repCls 2 isAlphaChar),
     .plusCls true reSpace,
     .grp 5 (.repCls 5 isDigitChar),
     .opt (.seq (.cls (· == '-')) (.grp 6 (.repCls 4 isDigitChar)))]

/-- `parseFullAddress`. -/
def parseFullAddress (caps : Caps) : GoAddr :=
  { streetNumber := capGet caps 1, streetName := capGet caps 2,
    unit := capGet caps 4, city := capGet caps 5,
    state := toUpperStr (capGet caps 6), zipCode := capGet caps 7,
    zipPlus4 := capGet caps 8 }

/-- `parseSimpleAddress`. -/
def parseSimpleAddress (caps : Caps) : GoAddr :=
  { streetNumber := capGet caps 1, streetName := capGet caps 2,
    city := capGet caps 3, state := toUpperStr (capGet caps 4),
    zipCode := capGet caps 5, zipPlus4 := capGet caps 6 }

/-- The token list the fallback parser scans for a state after the
street-number token was consumed. -/
def partialParts (s : Str) : List Str :=
  let parts0 := fieldsBy isSpaceChar s
  let takeNum : Bool :=
    match parts0 with
    | (c :: _) :: _ => isDigitChar c
    | _ => false
  if takeNum then parts0.tail else parts0

/-- The street-number token the fallback parser consumes: the first
token when it starts with a digit (`regexp.MatchString("^\d+", parts[0])`),
else the empty string. -/
def partialNumber (s : Str) : Str :=
  let parts0 := fieldsBy isSpaceChar s
  let takeNum : Bool :=
    match parts0 with
    | (c :: _) :: _ => isDigitChar c
    | _ => false
  if takeNum then parts0.headD [] else []

/-- The first loop of `parsePartialAddress`: scan the tokens left to
right for a state; on the first hit set the state, make the earlier
tokens the city, and take a following ZIP-shaped token as the ZIP. -/
def partialStep2 (sn : Str) (parts : List Str) : GoAddr :=
  let r1 : GoAddr := { streetNumber := sn }
  match findIdxOpt isStateTok parts with
  | some i =>
    { r1 with
      state := toUpperStr (parts.getD i []),
      city := if 0 < i then joinSpace (parts.take i) else [],
      zipCode :=
        if i + 1 < parts.length ∧ isZipCode (parts.getD (i + 1) []) then
          parts.getD (i + 1) []
        else [] }
  | none => r1

/-- The second loop of `parsePartialAddress`: with a street number but
no state, scan right to left for a ZIP-shaped token; a state token just
before it also fills state (and city from the tokens before that). -/
def partialStep3 (parts : List Str) (r2 : GoAddr) : GoAddr :=
  if r2.streetNumber ≠ [] ∧ r2.state = [] then
    match findIdxFromRight isZipCode parts with
    | some i =>
      { r2 with
        zipCode := parts.getD i [],
        state :=
          if 0 < i ∧ isStateTok (parts.getD (i - 1) []) then
            toUpperStr (parts.getD (i - 1) [])
          else r2.state,
        city :=
          if (0 < i ∧ isStateTok (parts.getD (i - 1) [])) ∧ 1 < i then
            joinSpace (parts.take (i - 1))
          else r2.city }
    | none => r2
  else r2

/-- The final branch of `parsePartialAddress`: with a street number but
neither city nor state, everything left is the street name. -/
def partialStep4 (parts : List Str) (r3 : GoAddr) : GoAddr :=
  if r3.streetNumber ≠ [] ∧ r3.city = [] ∧ r3.state = [] then
    { r3 with streetName := joinSpace parts }
  else r3

/-- `parsePartialAddress`: the heuristic fallback (its three sequential
blocks are `partialStep2`, `partialStep3` and `partialStep4`). -/
def parsePartialAddress (address : Str) : Option GoAddr :=
  let parts0 := fieldsBy isSpaceChar address
  if parts0.length < 2 then none else
  some (partialStep4 (partialParts address)
    (partialStep3 (partialParts address)
      (partialStep2 (partialNumber address) (partialParts address))))

/-- `parseAddress`: the ordered strategies. -/
def parseAddress (address : Str) : Option GoAddr :=
  match reFullMatch goPattern1 address with
  | some caps => some (parseFullAddress caps)
  | none =>
    match reFullMatch goPattern2 address with
    | some caps => some (parseSimpleAddress caps)
    | none => parsePartialAddress address

/-- First character upper-cased (`strings.ToUpper(string(word[0])) + word[1:]`). -/
def upFirst : Str → Str
  | [] => []
  | c :: t => toUpperChar c :: t

/-- `toTitleCase`. -/
def toTitleCase (s : Str) : Str :=
  joinSpace ((fieldsBy isSpaceChar (toLowerStr s)).map upFirst)

/-- Whole-word case-insensitive lookup of one run against a table. -/
def lookupWord (table : List (Str × Str)) (run : Str) : Str :=
  match table.find? (fun p => eqFold run p.1) with
  | some p => p.2
  | none => run

/-- Rewrite one run: word runs go through the table, separator runs are
kept. -/
def replaceRun (table : List (Str × Str)) (run : Str) : Str :=
  match run with
  | c :: _ => if isWordChar c then lookupWord table run else run
  | [] => run

/-- One pass of whole-word case-insensitive replacement: for every table
entry the Go code runs `regexp.ReplaceAllString` with the pattern
`(?i)\bkey\b`; since every key is a word-character run, a match is
exactly a maximal word run equal to the key up to case, and since no
key matches another key's replacement (checked in the lemmas below),
the per-entry iteration order of the Go map is irrelevant and the pass
is a single map over word runs. -/
def replaceWordRuns (table : List (Str × Str)) (s : Str) : Str :=
  ((splitRuns s).map (replaceRun table)).flatten

/-- `standardizeStreetName`. -/
def standardizeStreetName (s : Str) : Str :=
  let t := toTitleCase (trimStr s)
  let t2 := replaceWordRuns suffixTable t
  replaceWordRuns misspellTable t2

/-- `standardizeCity`. -/
def standardizeCity (s : Str) : Str := toTitleCase (trimStr s)

/-- `standardizeState`. -/
def standardizeState (s : Str) : Str :=
  let u := trimStr (toUpperStr s)
  if (lookupAssoc stateTable u).isSome then u
  else
    match stateTable.find? (fun p => eqFold u p.2) with
    | some p => p.1
    | none => u

/-- `buildFullAddress`. -/
def buildFullAddress (a : GoAddr) : Str :=
  let parts : List Str :=
    (if a.streetNumber ≠ [] ∧ a.streetName ≠ [] then
       [a.streetNumber ++ [' '] ++ a.streetName ++
         (if a.unit ≠ [] then [' '] ++ a.unit else [])]
     else []) ++
    (if a.city ≠ [] then [a.city] else []) ++
    (if a.state ≠ [] then
       [a.state ++
         (if a.zipCode ≠ [] then
            [' '] ++ a.zipCode ++
              (if a.zipPlus4 ≠ [] then ['-'] ++ a.zipPlus4 else [])
          else [])]
     else [])
  joinWithSep (", ".toList) parts

/-- `standardizeAddress` (the `nil` guard lives in `validateComponents`'
caller; the standardizer itself is only reached with a record). -/
def standardizeAddress (a : GoAddr) : GoAddr :=
  let a1 := { a with
    streetName :=
      if a.streetName ≠ [] then standardizeStreetName a.streetName
      else a.streetName }
  let a2 := { a1 with
    city := if a1.city ≠ [] then standardizeCity a1.city else a1.city }
  let a3 := { a2 with
    state := if a2.state ≠ [] then standardizeState a2.state else a2.state }
  { a3 with fullAddress := buildFullAddress a3 }

/-- The list `missingComponents` built by `validateComponents`. -/
def missingComponents (a : GoAddr) : List Str :=
  (if a.streetNumber = [] then ["street number".toList] else []) ++
  (if a.streetName = [] then ["street name".toList] else []) ++
  (if a.city = [] then ["city".toList] else []) ++
  (if a.state = [] then ["state".toList]
   else if ¬ isValidState a.state then ["valid state".toList] else []) ++
  (if a.zipCode = [] then ["ZIP code".toList]
   else if ¬ isValidZipCode a.zipCode then ["valid ZIP code".toList] else [])

/-- `validationResult`. -/
structure GoValidationResult where
  status : Str
  message : Str
deriving DecidableEq, Repr

/-- `validateComponents`.  The Go function also builds a
`correctedComponents` list, but no code path ever appends to it, so its
branch is dead; it is kept here verbatim. -/
def validateComponents (a : Option GoAddr) : GoValidationResult :=
  match a with
  | none => ⟨statusUnverifiable, "Unable to parse address".toList⟩
  | some addr =>
    let missing := missingComponents addr
    let corrected : List Str := []
    if missing.length > 2 then
      ⟨statusUnverifiable,
        "Missing critical components: ".toList ++ joinWithSep ", ".toList missing⟩
    else if missing.length > 0 then
      ⟨statusCorrected,
        "Address standardized but missing: ".toList ++ joinWithSep ", ".toList missing⟩
    else if corrected.length > 0 then
      ⟨statusCorrected,
        "Address standardized with corrections: ".toList ++ joinWithSep ", ".toList corrected⟩
    else ⟨statusValid, "Address is valid and standardized".toList⟩

/-- `AddressResponse` (models.go), without the `ProcessedAt` timestamp
(wall-clock time is outside the model).  The Go function also returns an
`error` that is `nil` on every path; totality of this definition is the
model of that fact. -/
structure GoResponse where
  status : Str
  originalAddress : Str
  validatedAddress : Option GoAddr
  message : Str
deriving DecidableEq, Repr

/-- `ValidateAndStandardize`. -/
def validateAndStandardize (address : Str) : GoResponse :=
  let cleaned := cleanAddress address
  if cleaned = [] then
    ⟨statusUnverifiable, address, none,
      "Address is empty or contains only invalid characters".toList⟩
  else
    match parseAddress cleaned with
    | none =>
      ⟨statusUnverifiable, address, none,
        "Unable to parse address components".toList⟩
    | some parsed =>
      let std := standardizeAddress parsed
      let vr := validateComponents (some std)
      ⟨vr.status, address, some std, vr.message⟩

/-!
The TypeScript implementation (`addressValidator.ts`).
-/

/-- `ValidatedAddress` (types.ts): nullable component fields. -/
structure TsAddr where
  streetNumber : Option Str
  streetName : Option Str
  city : Option Str
  state : Option Str
  zipCode : Option Str
  formatted : Str
deriving DecidableEq, Repr

/-- `AddressValidationResult` (types.ts).  The optional `corrections`
field is modelled as a list, `[]` standing for `undefined` (the code
emits `undefined` exactly when the list is empty). -/
structure TsResult where
  status : Str
  confidence : ℚ
  original : Str
  validated : Option TsAddr
  corrections : List Str
deriving DecidableEq, Repr

/-- `stateAbbreviations` (TS): lower-case full name → 2-letter code. -/
def tsStateFull : List (Str × Str) :=
  stateTablePairs.map (fun p => (p.2.toList.map toLowerChar, p.1.toList))

/-- `streetAbbreviations` (TS). -/
def tsStreetAbbrevs : List (Str × Str) :=
  ([("st", "Street"), ("ave", "Avenue"), ("blvd", "Boulevard"),
    ("dr", "Drive"), ("rd", "Road"), ("ct", "Court"), ("cir", "Circle"),
    ("ln", "Lane"), ("way", "Way"), ("pl", "Place"), ("pkwy", "Parkway"),
    ("ter", "Terrace"), ("sq", "Square"), ("hwy", "Highway")]
    : List (String × String)).map (fun p => (p.1.toList, p.2.toList))

/-- `directions` (TS). -/
def tsDirections : List (Str × Str) :=
  ([("n", "North"), ("s", "South"), ("e", "East"), ("w", "West"),
    ("ne", "Northeast"), ("nw", "Northwest"), ("se", "Southeast"),
    ("sw", "Southwest")]
    : List (String × String)).map (fun p => (p.1.toList, p.2.toList))

/-- `normalizeAddress`: lower-case, trim, `[,.]` → space, collapse
whitespace. -/
def normalizeAddress (s : Str) : Str :=
  collapseWS isSpaceChar
    ((trimStr (toLowerStr s)).map (fun c => if c = ',' ∨ c = '.' then ' ' else c))

/-- Text boundary test for `\b` on the left of a position: start of
string or a preceding non-word character. -/
def leftBoundary (prev : Option Char) : Bool :=
  match prev with
  | none => true
  | some p => ¬ isWordChar p

/-- Text boundary test for `\b` on the right of a match. -/
def rightBoundary (rest : Str) : Bool :=
  match rest with
  | [] => true
  | c :: _ => ¬ isWordChar c

/-- Try `(\d{5}(?:-\d{4})?)\b` at the current position (the greedy
optional extension is tried first, as the JS engine does). -/
def tryZipAt (s : Str) : Option Str :=
  let five := s.take 5
  if five.length = 5 ∧ five.all isDigitChar then
    let rest5 := s.drop 5
    match rest5 with
    | '-' :: r2 =>
      let four := r2.take 4
      if four.length = 4 ∧ four.all isDigitChar ∧ rightBoundary (r2.drop 4) then
        some (five ++ ['-'] ++ four)
      else if rightBoundary rest5 then some five else none
    | _ => if rightBoundary rest5 then some five else none
  else none

/-- Leftmost match of `\b(\d{5}(?:-\d{4})?)\b` inside a token
(`part.match(zipPattern)` in `extractZipCode`). -/
def zipFindAux (prev : Option Char) : Str → Option Str
  | [] => none
  | c :: rest =>
    if leftBoundary prev then
      match tryZipAt (c :: rest) with
      | some z => some z
      | none => zipFindAux (some c) rest
    else zipFindAux (some c) rest

/-- Leftmost ZIP-shaped match inside a token. -/
def zipFindIn (t : Str) : Option Str := zipFindAux none t

/-- `extractZipCode`, acting on the reversed part list (the loop runs
from the last part towards the first); returns the match and the
remaining (still reversed) parts. -/
def extractZipRev : List Str → Option (Str × List Str)
  | [] => none
  | t :: rest =>
    match zipFindIn t with
    | some z => some (z, rest)
    | none =>
      match extractZipRev rest with
      | some (z, rem) => some (z, t :: rem)
      | none => none

/-- `extractZipCode`. -/
def extractZipCode (parts : List Str) : Option Str × List Str :=
  match extractZipRev parts.reverse with
  | some (z, remRev) => (some z, remRev.reverse)
  | none => (none, parts)

/-- The state test and value of `extractState` for one part:
`stateAbbreviations[part] || values.includes(part.toUpperCase())`. -/
def tsStateOf (t : Str) : Option Str :=
  let lp := toLowerStr t
  match lookupAssoc tsStateFull lp with
  | some code => some code
  | none =>
    if tsStateFull.any (fun p => p.2 == toUpperStr lp) then some (toUpperStr lp)
    else none

/-- `extractState`, acting on the reversed part list. -/
def extractStateRev : List Str → Option (Str × List Str)
  | [] => none
  | t :: rest =>
    match tsStateOf t with
    | some st => some (st, rest)
    | none =>
      match extractStateRev rest with
      | some (st, rem) => some (st, t :: rem)
      | none => none

/-- `extractState`. -/
def extractState (parts : List Str) : Option Str × List Str :=
  match extractStateRev parts.reverse with
  | some (st, remRev) => (some st, remRev.reverse)
  | none => (none, parts)

/-- The pattern `^\d+[A-Za-z]?$` of `extractStreetNumber`. -/
def tsNumberPat (p : Str) : Bool :=
  match p.reverse with
  | [] => false
  | c :: rest =>
    if isAlphaChar c then rest ≠ [] && rest.all isDigitChar
    else (c :: rest).all isDigitChar

/-- `replace(/([a-z])$/, upper)`: upper-case a trailing lower-case
letter (apartment suffixes are preserved in upper case). -/
def upLastLetter (p : Str) : Str :=
  match p.reverse with
  | c :: rest => if 'a' ≤ c ∧ c ≤ 'z' then (toUpperChar c :: rest).reverse else p
  | [] => p

/-- `extractStreetNumber`. -/
def extractStreetNumber (parts : List Str) : Option Str × List Str :=
  match parts with
  | [] => (none, [])
  | p :: rest =>
    if tsNumberPat p then (some (upLastLetter p), rest) else (none, parts)

/-- `expandStreetType`: expand the last space-separated word when it is
a known street-type abbreviation. -/
def expandStreetType (s : Str) : Str × Bool :=
  let ws := splitBy (· == ' ') s
  match ws.getLast? with
  | none => (s, false)
  | some lw =>
    match lookupAssoc tsStreetAbbrevs (toLowerStr lw) with
    | some full => (joinSpace (ws.dropLast ++ [full]), true)
    | none => (s, false)

/-- `expandDirections`: expand every direction word. -/
def expandDirections (s : Str) : Str × Bool :=
  let ws := splitBy (· == ' ') s
  let ws2 := ws.map (fun w =>
    match lookupAssoc tsDirections (toLowerStr w) with
    | some d => d
    | none => w)
  (joinSpace ws2, ws.any (fun w => (lookupAssoc tsDirections (toLowerStr w)).isSome))

/-- The word alternatives of the `streetIndicators` regex. -/
def streetIndicatorWords : List Str :=
  (["street", "st", "avenue", "ave", "road", "rd", "drive", "dr", "lane",
    "ln", "way", "court", "ct", "circle", "cir", "boulevard", "blvd",
    "place", "pl"] : List String).map String.toList

/-- `streetIndicators.test(...)`: some whole word of the text is one of
the alternatives (each alternative is a pure letter run, so a
`\b...\b` match is a full word run equal to it up to case). -/
def hasStreetIndicator (s : Str) : Bool :=
  (splitRuns s).any (fun run =>
    match run with
    | c :: _ => isWordChar c && streetIndicatorWords.any (fun w => eqFold run w)
    | [] => false)

/-- `replace(/\b\w/g, l => l.toUpperCase())`: upper-case every character
that starts a word run. -/
def upWordStarts (prev : Option Char) : Str → Str
  | [] => []
  | c :: t =>
    (if isWordChar c ∧ leftBoundary prev then toUpperChar c else c) ::
      upWordStarts (some c) t

/-- `city.charAt(0).toUpperCase() + city.slice(1).toLowerCase()`. -/
def capitalizeCity (s : Str) : Str :=
  match s with
  | [] => []
  | c :: t => toUpperChar c :: toLowerStr t

/-- `Math.max` on exact rationals. -/
def qMax (a b : ℚ) : ℚ := if a ≤ b then b else a

/-- `Math.min` on exact rationals. -/
def qMin (a b : ℚ) : ℚ := if a ≤ b then a else b

/-- `calculateConfidence`, over exact rationals.  Every constant is a
multiple of 1/20, so exact arithmetic realizes the intended decimal
computation. -/
def calculateConfidence (sn sname city state zip : Option Str)
    (ncorr : Nat) : ℚ :=
  let c0 : ℚ := 9/10
  let c1 := c0 - (if sn = none then 2/10 else 0)
  let c2 := c1 - (if sname = none then 3/10 else 0)
  let c3 := c2 - (if city = none then 2/10 else 0)
  let c4 := c3 - (if state = none then 2/10 else 0)
  let c5 := c4 - (if zip = none then 1/10 else 0)
  let c6 := c5 - (ncorr : ℚ) * (5/100)
  qMax (1/10) (qMin 1 c6)

/-- `Math.round(x * 100) / 100`: JS `Math.round` is
`x ↦ ⌊x + 1/2⌋`. -/
def round2 (q : ℚ) : ℚ := ((q * 100 + 1/2).floor : ℤ) / 100

/-- The status decision of `validateAddress`: `valid`, overridden by
`corrected` when corrections were recorded, overridden by
`unverifiable` when confidence is below 0.3 or both street name and
city are absent. -/
def tsStatusOf (conf : ℚ) (streetName city : Option Str)
    (corrections : List Str) : Str :=
  if conf < 3/10 ∨ (streetName = none ∧ city = none) then statusUnverifiable
  else if corrections ≠ [] then statusCorrected
  else statusValid

/-- The correction note recorded by direction expansion. -/
def corrDirections : Str := "Direction abbreviations expanded".toList

/-- The correction note recorded by street-type expansion. -/
def corrStreetType : Str := "Street type abbreviation expanded".toList

/-- Assemble the TS result from the parsed components and correction
list: confidence, status, formatted string and validated record, as
the tail of `validateAddress` computes them. -/
def tsBuild (original : Str) (sn sname city state zip : Option Str)
    (corrections : List Str) : TsResult :=
  let conf := calculateConfidence sn sname city state zip corrections.length
  let status := tsStatusOf conf sname city corrections
  let part1 : Str :=
    match sn, sname with
    | some n, some s => n ++ [' '] ++ s
    | _, some s => s
    | _, none => []
  let part3 : Str :=
    match state, zip with
    | some st, some z => st ++ [' '] ++ z
    | some st, none => st
    | none, some z => z
    | none, none => []
  let formatted :=
    joinWithSep ", ".toList
      (([part1, city.getD [], part3]).filter (fun p => p ≠ []))
  { status := status,
    confidence := round2 conf,
    original := original,
    validated := some
      { streetNumber := sn, streetName := sname, city := city,
        state := state, zipCode := zip, formatted := formatted },
    corrections := corrections }

/-- `validateAddress` (addressValidator.ts). -/
def tsValidateAddress (address : Str) : TsResult :=
  let normalized := normalizeAddress address
  let parts := fieldsBy (· == ' ') normalized
  if parts = [] then
    { status := statusUnverifiable, confidence := 0, original := address,
      validated := none,
      corrections := ["Empty or invalid address provided".toList] }
  else
    let ez := extractZipCode parts
    let es := extractState ez.2
    let en := extractStreetNumber es.2
    let zipCode := ez.1
    let state := es.1
    let streetNumber := en.1
    let parts3 := en.2
    -- city / street-name determination
    let cityStreet : Option Str × Option Str :=
      if parts3 = [] then (none, none)
      else if 2 ≤ parts3.length then
        let lastPart := toLowerStr (parts3.getLastD [])
        if tsStreetAbbrevs.any (fun p => p.1 == lastPart) then
          (none, some (joinSpace parts3))
        else (some (parts3.getLastD []), some (joinSpace parts3.dropLast))
      else
        let single := joinSpace parts3
        if streetNumber.isSome then (none, some single)
        else if hasStreetIndicator single then (none, some single)
        else (some single, none)
    -- expansions with correction notes
    let expanded : Option Str × List Str :=
      match cityStreet.2 with
      | some sname =>
        let d := expandDirections sname
        let afterD := if d.2 then d.1 else sname
        let corrA := if d.2 then [corrDirections] else []
        let t := expandStreetType afterD
        let afterT := if t.2 then t.1 else afterD
        let corrB := if t.2 then [corrStreetType] else []
        (some afterT, corrA ++ corrB)
      | none => (none, [])
    let corrections := expanded.2
    let city := cityStreet.1.map capitalizeCity
    let streetName := expanded.1.map (upWordStarts none)
    tsBuild address streetNumber streetName city state zipCode corrections

/-!
Definitions used only to state the claims: the character set and
whitespace shape named by the CleanedText invariant, and the concrete
inputs of the counterexamples.
-/

/-- The character set the CleanedText invariant names: alphanumeric
characters, whitespace, and `- . # / ,` (note: no underscore). -/
def isAllowedSpecChar (c : Char) : Bool :=
  isAlphaChar c || isDigitChar c || isSpaceChar c ||
    c = '-' || c = '.' || c = '#' || c = '/' || c = ','

/-- No two adjacent whitespace characters. -/
def noDoubleWS : Str → Bool
  | [] => true
  | [_] => true
  | a :: b :: t => !(isSpaceChar a && isSpaceChar b) && noDoubleWS (b :: t)

/-- Every run of whitespace is a single space character. -/
def wsSingleSpace (s : Str) : Bool :=
  noDoubleWS s && s.all (fun c => !isSpaceChar c || c = ' ')

/-- The CleanedText invariant exactly as the spec states it: output
empty, or trimmed length at least 5, whitespace runs collapsed to a
single space, and only alphanumerics, whitespace and `- . # / ,`. -/
def claim5Invariant (s : Str) : Prop :=
  cleanAddress s = [] ∨
    (5 ≤ (trimStr (cleanAddress s)).length ∧
      wsSingleSpace (cleanAddress s) = true ∧
      (cleanAddress s).all isAllowedSpecChar = true)

/-- A well-formed address of 516 characters: longer than 500, yet fully
parseable. -/
def longAddr : Str :=
  "123 main ".toList ++ List.replicate 490 'a' ++ " anytown ca 12345".toList

/-- A parsed record whose street name holds a hyphenated abbreviation. -/
def addrHyphenSt : GoAddr := { streetName := "Main-St".toList }

/-- A parsed record with a plain word-and-space street name. -/
def addrPlainSt : GoAddr :=
  { streetName := "main st".toList, city := "new  york".toList,
    state := "california".toList, streetNumber := "123".toList }

/-- The claim's count of missing or invalid components: each absent
field among street number, street name, city, state and ZIP, plus a
present state outside the known set and a present ZIP failing the
format. -/
def claimMissingCount (a : GoAddr) : Nat :=
  (if a.streetNumber = [] then 1 else 0) +
  (if a.streetName = [] then 1 else 0) +
  (if a.city = [] then 1 else 0) +
  (if a.state = [] then 1 else 0) +
  (if a.zipCode = [] then 1 else 0) +
  (if a.state ≠ [] ∧ ¬ isValidState a.state then 1 else 0) +
  (if a.zipCode ≠ [] ∧ ¬ isValidZipCode a.zipCode then 1 else 0)

/-- What the fallback parser returns on `"12 oak NY"`. -/
def partialSample : GoAddr :=
  { streetNumber := "12".toList, city := "oak".toList, state := "NY".toList }

/-- The interleaving of word runs with single-space separator runs:
what `splitRuns` yields on a space-joined list of word-character
words. -/
def interleaveSpace : List Str → List Str
  | [] => []
  | [w] => [w]
  | w :: x :: rest => w :: [' '] :: interleaveSpace (x :: rest)

/-- The scoring-policy contract of the claim, on a validate result:
some validated record is present, the confidence is the 0.9-based
deduction formula over that record's absent fields and the correction
count, clamped to [0.1, 1.0] and rounded to two decimals, and the
status follows the corrected/unverifiable/valid decision on the
unrounded clamped confidence. -/
def scoringPolicySpec (r : TsResult) : Prop :=
  ∃ v, r.validated = some v ∧
    (let raw : ℚ :=
      9/10 - (if v.streetNumber = none then 2/10 else 0)
        - (if v.streetName = none then 3/10 else 0)
        - (if v.city = none then 2/10 else 0)
        - (if v.state = none then 2/10 else 0)
        - (if v.zipCode = none then 1/10 else 0)
        - (r.corrections.length : ℚ) * (5/100)
     let clamped := qMax (1/10) (qMin 1 raw)
     r.confidence = round2 clamped ∧
      r.status =
        (if clamped < 3/10 ∨ (v.streetName = none ∧ v.city = none) then
          statusUnverifiable
        else if r.corrections ≠ [] then statusCorrected
        else statusValid))

/-!
Theorems.  First the helper lemmas, then one theorem per claim
(with a witness or counterexample where the claim's status needs one).
-/

/-- The TS status decision always lands in the closed status set. -/
theorem tsStatusOf_mem (conf : ℚ) (sn city : Option Str) (cs : List Str) :
    tsStatusOf conf sn city cs = statusValid ∨
    tsStatusOf conf sn city cs = statusCorrected ∨
    tsStatusOf conf sn city cs = statusUnverifiable := by
  unfold tsStatusOf
  split_ifs <;> simp

/-- The Go classifier always lands in the closed status set. -/
theorem validateComponents_status_mem (a : Option GoAddr) :
    (validateComponents a).status = statusValid ∨
    (validateComponents a).status = statusCorrected ∨
    (validateComponents a).status = statusUnverifiable := by
  unfold validateComponents
  cases a with
  | none => simp
  | some addr =>
    dsimp only
    split_ifs <;> simp

/-- C1: for every input string, the engine's validate operation returns
normally — the Go `ValidateAndStandardize` and the TS `validateAddress`
are total functions of the input (the Go error result is `nil` on every
path), and the returned status lies in the closed set
`{valid, corrected, unverifiable}`. -/
theorem claim1_status_closed (s : Str) :
    ((validateAndStandardize s).status = statusValid ∨
     (validateAndStandardize s).status = statusCorrected ∨
     (validateAndStandardize s).status = statusUnverifiable) ∧
    ((tsValidateAddress s).status = statusValid ∨
     (tsValidateAddress s).status = statusCorrected ∨
     (tsValidateAddress s).status = statusUnverifiable) := by
  constructor
  · unfold validateAndStandardize
    dsimp only
    split
    · simp
    · split
      · simp
      · exact validateComponents_status_mem _
  · unfold tsValidateAddress
    dsimp only
    split
    · simp
    · exact tsStatusOf_mem _ _ _ _

/-- C4: when the Cleaner fails (empty cleaned text) or the Parser fails
(no parse result), the validate operation returns the early
`unverifiable` outcome with no validated record (and confidence 0.0 in
the scoring variant); the result is the literal short-circuit record,
so the Standardizer and Classifier never contribute to it. -/
theorem claim4_failure_shortcircuit :
    (∀ s, cleanAddress s = [] →
        validateAndStandardize s =
          ⟨statusUnverifiable, s, none,
            "Address is empty or contains only invalid characters".toList⟩) ∧
    (∀ s, cleanAddress s ≠ [] → parseAddress (cleanAddress s) = none →
        validateAndStandardize s =
          ⟨statusUnverifiable, s, none,
            "Unable to parse address components".toList⟩) ∧
    (∀ s, fieldsBy (· == ' ') (normalizeAddress s) = [] →
        tsValidateAddress s =
          { status := statusUnverifiable, confidence := 0, original := s,
            validated := none,
            corrections := ["Empty or invalid address provided".toList] }) := by
  refine ⟨?_, ?_, ?_⟩
  · intro s h
    unfold validateAndStandardize
    dsimp only
    rw [h]
    rfl
  · intro s h1 h2
    unfold validateAndStandardize
    dsimp only
    rw [if_neg h1, h2]
  · intro s h
    unfold tsValidateAddress
    dsimp only
    rw [h]
    rfl

/-- C5 counterexample: on the input `"ab_c ! def"` the cleaner keeps the
underscore (which is not alphanumeric) and leaves two adjacent spaces
where `!` was deleted, so the CleanedText invariant as stated fails. -/
theorem claim5_cx : ¬ claim5Invariant ("ab_c ! def".toList) := by
  unfold claim5Invariant
  decide

/-- C5 amended: the cleaner's output is either empty or of trimmed
length at least 5 and made only of word characters (alphanumerics and
underscore), whitespace, and `- . # / ,`; runs of whitespace are
collapsed before character filtering, so deleting a disallowed
character can leave adjacent spaces in the output. -/
theorem claim5_cleaner_charset (s : Str) :
    cleanAddress s = [] ∨
      (5 ≤ (trimStr (cleanAddress s)).length ∧
        ∀ c ∈ cleanAddress s, isAllowedGoChar c = true) := by
  unfold cleanAddress
  dsimp only
  split
  · exact Or.inl rfl
  · split
    · exact Or.inl rfl
    · split
      · exact Or.inl rfl
      · next h =>
        refine Or.inr ⟨by omega, ?_⟩
        intro c hc
        exact (List.mem_filter.mp hc).2

/-- C6 counterexample: a 516-character address on which the TS
`validateAddress` (which applies no length cap) returns a
non-`unverifiable` status. -/
theorem claim6_cx :
    500 < longAddr.length ∧
    (tsValidateAddress longAddr).status ≠ statusUnverifiable := by
  constructor
  · decide
  · decide

/-- C6 amended: in the Go variant every input longer than 500
characters is rejected by the cleaner before any parsing and the result
status is `unverifiable`; the TS variant applies no length cap. -/
theorem claim6_go_cap (s : Str) (h : 500 < s.length) :
    (validateAndStandardize s).status = statusUnverifiable := by
  have hc : cleanAddress s = [] := by
    unfold cleanAddress
    rw [if_pos h]
  unfold validateAndStandardize
  dsimp only
  rw [hc]
  rfl

/-- Witness for C6: the 501-character input `"aa…a"`. -/
theorem claim6_witness :
    500 < (List.replicate 501 'a' : Str).length ∧
    (validateAndStandardize (List.replicate 501 'a')).status = statusUnverifiable :=
  ⟨by decide, claim6_go_cap _ (by decide)⟩

/-- The classifier's missing list has exactly the length the claim's
component count predicts. -/
theorem missingComponents_length (a : GoAddr) :
    (missingComponents a).length = claimMissingCount a := by
  unfold missingComponents claimMissingCount
  split_ifs <;> simp_all

/-- C2: the counting-policy classifier counts exactly the absent fields
plus a present-but-invalid state and a present-but-invalid ZIP, and
maps count 0 to `valid`, counts 1–2 to `corrected` with the
missing-list message, and counts above 2 to `unverifiable` with the
critical-components message. -/
theorem claim2_counting_policy (a : GoAddr) :
    (missingComponents a).length = claimMissingCount a ∧
    validateComponents (some a) =
      (if 2 < claimMissingCount a then
        ⟨statusUnverifiable,
          "Missing critical components: ".toList ++
            joinWithSep ", ".toList (missingComponents a)⟩
      else if 0 < claimMissingCount a then
        ⟨statusCorrected,
          "Address standardized but missing: ".toList ++
            joinWithSep ", ".toList (missingComponents a)⟩
      else ⟨statusValid, "Address is valid and standardized".toList⟩) := by
  refine ⟨missingComponents_length a, ?_⟩
  unfold validateComponents
  dsimp only
  rw [missingComponents_length a]
  simp

/-- C9 counterexample: in the TS variant `"789 Main Street"` is not
`unverifiable` — the token `Street` is taken as the city, so the city
component is present and the status is `valid`. -/
theorem claim9_cx :
    (tsValidateAddress ("789 Main Street".toList)).status = statusValid ∧
    (tsValidateAddress ("789 Main Street".toList)).validated.map TsAddr.city =
      some (some ("Street".toList)) := by
  decide

/-- C9 amended: in the Go variant `"789 Main Street"` yields status
`unverifiable` with city, state and ZIP absent from the parsed record;
the TS variant instead parses city `"Street"` and returns `valid`. -/
theorem claim9_go :
    (validateAndStandardize ("789 Main Street".toList)).status = statusUnverifiable ∧
    (validateAndStandardize ("789 Main Street".toList)).validatedAddress.map GoAddr.city =
      some [] ∧
    (validateAndStandardize ("789 Main Street".toList)).validatedAddress.map GoAddr.state =
      some [] ∧
    (validateAndStandardize ("789 Main Street".toList)).validatedAddress.map GoAddr.zipCode =
      some [] := by
  decide

/-- No two distinct state table entries have names equal up to case. -/
theorem stateTable_name_inj :
    ∀ p ∈ stateTable, ∀ q ∈ stateTable, toLowerStr p.2 = toLowerStr q.2 → p = q := by
  decide

/-- C8: `standardizeState` upper-cases and trims a non-empty state
value; a value already equal to a known 2-letter code is kept, else a
case-insensitive full-name match is replaced by the corresponding
code, and otherwise the (upper-cased, trimmed) value is returned
unresolved. -/
theorem claim8_state_standardization (s : Str) (h : s ≠ []) :
    ((lookupAssoc stateTable (trimStr (toUpperStr s))).isSome = true →
      standardizeState s = trimStr (toUpperStr s)) ∧
    ((lookupAssoc stateTable (trimStr (toUpperStr s))).isSome = false →
      ∀ p ∈ stateTable, eqFold (trimStr (toUpperStr s)) p.2 = true →
        standardizeState s = p.1) ∧
    ((lookupAssoc stateTable (trimStr (toUpperStr s))).isSome = false →
      (∀ p ∈ stateTable, eqFold (trimStr (toUpperStr s)) p.2 = false) →
      standardizeState s = trimStr (toUpperStr s)) := by
  refine ⟨?_, ?_, ?_⟩
  · intro h1
    unfold standardizeState
    dsimp only
    rw [if_pos h1]
  · intro h1 p hp hfold
    unfold standardizeState
    dsimp only
    rw [if_neg (by simp [h1])]
    rcases hf : stateTable.find? (fun q => eqFold (trimStr (toUpperStr s)) q.2) with _ | q
    · exact absurd hfold (by simpa using List.find?_eq_none.mp hf p hp)
    · have hq2 := List.find?_some hf
      have hqm : q ∈ stateTable := List.mem_of_find?_eq_some hf
      have heq : p = q := by
        apply stateTable_name_inj p hp q hqm
        have e1 : toLowerStr (trimStr (toUpperStr s)) = toLowerStr p.2 := by
          simpa [eqFold] using hfold
        have e2 : toLowerStr (trimStr (toUpperStr s)) = toLowerStr q.2 := by
          simpa [eqFold] using hq2
        exact e1.symm.trans e2
      subst heq
      rw [hf]
  · intro h1 hall
    unfold standardizeState
    dsimp only
    rw [if_neg (by simp [h1])]
    rw [List.find?_eq_none.mpr (fun q hq => by simp [hall q hq])]

/-- Witness for C8: `"California"` resolves to `"CA"`, `"tx"` is kept
as the code `"TX"`, and `"Atlantis"` stays unresolved (upper-cased). -/
theorem claim8_witness :
    standardizeState ("California".toList) = "CA".toList ∧
    standardizeState ("tx".toList) = "TX".toList ∧
    standardizeState ("Atlantis".toList) = "ATLANTIS".toList := by
  refine ⟨?_, ?_, ?_⟩
  · exact ((claim8_state_standardization ("California".toList) (by decide)).2.1
      (by decide) ("CA".toList, "California".toList) (by decide) (by decide)).trans
      (by decide)
  · exact ((claim8_state_standardization ("tx".toList) (by decide)).1
      (by decide)).trans (by decide)
  · exact ((claim8_state_standardization ("Atlantis".toList) (by decide)).2.2
      (by decide) (by decide)).trans (by decide)

/-- A found index is inside the list. -/
theorem findIdxOpt_some_lt (p : α → Bool) (l : List α) (i : Nat)
    (h : findIdxOpt p l = some i) : i < l.length := by
  induction l generalizing i with
  | nil => simp [findIdxOpt] at h
  | cons a t ih =>
    unfold findIdxOpt at h
    by_cases hp : p a
    · rw [if_pos hp] at h
      cases h
      simp
    · rw [if_neg hp] at h
      rcases Option.map_eq_some'.mp h with ⟨j, hj, rfl⟩
      have := ih j hj
      simp
      omega

/-- When some member satisfies the predicate, the scan finds one. -/
theorem findIdxOpt_ne_none (p : α → Bool) (l : List α) (a : α)
    (ha : a ∈ l) (hp : p a = true) : findIdxOpt p l ≠ none := by
  induction l with
  | nil => cases ha
  | cons b t ih =>
    unfold findIdxOpt
    by_cases hb : p b
    · simp [hb]
    · rw [if_neg hb]
      rcases List.mem_cons.mp ha with rfl | hm
      · exact absurd hp hb
      · simp only [ne_eq, Option.map_eq_none']
        exact ih hm

/-- Every token produced by `fieldsBy` is non-empty. -/
theorem fieldsBy_ne_nil (p : Char → Bool) (s : Str) :
    ∀ w ∈ fieldsBy p s, w ≠ [] := by
  intro w hw
  simpa using (List.mem_filter.mp hw).2

/-- Every token the fallback state scan inspects is non-empty. -/
theorem partialParts_ne_nil (s : Str) : ∀ w ∈ partialParts s, w ≠ [] := by
  intro w hw
  unfold partialParts at hw
  dsimp only at hw
  split at hw
  · exact fieldsBy_ne_nil _ _ w (List.mem_of_mem_tail hw)
  · exact fieldsBy_ne_nil _ _ w hw

/-- A found right-to-left index is inside the list. -/
theorem findIdxFromRight_some_lt (p : α → Bool) (l : List α) (j : Nat)
    (h : findIdxFromRight p l = some j) : j < l.length := by
  unfold findIdxFromRight at h
  rcases hf : findIdxOpt p l.reverse with _ | k
  · rw [hf] at h
    cases h
  · rw [hf] at h
    cases h
    have hk := findIdxOpt_some_lt _ _ _ hf
    rw [List.length_reverse] at hk
    omega

/-- `getD` at an in-range index is a member. -/
theorem getD_mem_of_lt (l : List α) (i : Nat) (d : α) (h : i < l.length) :
    l.getD i d ∈ l := by
  rw [List.getD_eq_getElem _ _ h]
  exact List.getElem_mem h

/-- `partialStep2` never sets a street name. -/
theorem partialStep2_streetName (sn : Str) (parts : List Str) :
    (partialStep2 sn parts).streetName = [] := by
  unfold partialStep2
  rcases findIdxOpt isStateTok parts with _ | i <;> rfl

/-- When the left-to-right scan hits index `i`, the state field is that
token upper-cased. -/
theorem partialStep2_state_some (sn : Str) (parts : List Str) (i : Nat)
    (h : findIdxOpt isStateTok parts = some i) :
    (partialStep2 sn parts).state = toUpperStr (parts.getD i []) := by
  unfold partialStep2
  rw [h]

/-- `partialStep3` never touches the street name. -/
theorem partialStep3_streetName (parts : List Str) (r2 : GoAddr) :
    (partialStep3 parts r2).streetName = r2.streetName := by
  unfold partialStep3
  split
  · rcases findIdxFromRight isZipCode parts with _ | i <;> rfl
  · rfl

/-- `partialStep3` is the identity on a record that already has a
state. -/
theorem partialStep3_of_state_ne (parts : List Str) (r2 : GoAddr)
    (h : r2.state ≠ []) : partialStep3 parts r2 = r2 := by
  unfold partialStep3
  rw [if_neg (fun hc => absurd hc.2 h)]

/-- `partialStep4` keeps the state field. -/
theorem partialStep4_state (parts : List Str) (r3 : GoAddr) :
    (partialStep4 parts r3).state = r3.state := by
  unfold partialStep4
  split <;> rfl

/-- `partialStep4` is the identity on a record that has a state. -/
theorem partialStep4_of_state_ne (parts : List Str) (r3 : GoAddr)
    (h : r3.state ≠ []) : partialStep4 parts r3 = r3 := by
  unfold partialStep4
  rw [if_neg (fun hc => absurd hc.2.2 h)]

/-- C10: the fallback parser never returns both a non-empty state and a
non-empty street name; whenever some scanned token is recognised as a
state, the street name stays empty (the street-name branch runs only
with city and state absent). -/
theorem claim10_fallback_invariant (s : Str) (r : GoAddr)
    (h : parsePartialAddress s = some r) :
    (r.state ≠ [] → r.streetName = []) ∧
    ((∃ t ∈ partialParts s, isStateTok t = true) → r.streetName = []) := by
  unfold parsePartialAddress at h
  dsimp only at h
  split at h
  · exact absurd h (by simp)
  · have hr : r = partialStep4 (partialParts s)
      (partialStep3 (partialParts s)
        (partialStep2 (partialNumber s) (partialParts s))) :=
      (Option.some.inj h).symm
    subst hr
    constructor
    · intro hst
      rw [partialStep4_state] at hst
      rw [partialStep4_of_state_ne _ _ hst, partialStep3_streetName,
        partialStep2_streetName]
    · rintro ⟨t, ht, hpt⟩
      rcases hi : findIdxOpt isStateTok (partialParts s) with _ | i
      · exact absurd hi (findIdxOpt_ne_none _ _ t ht hpt)
      · have h2 : (partialStep2 (partialNumber s) (partialParts s)).state ≠ [] := by
          rw [partialStep2_state_some _ _ _ hi]
          have hlt := findIdxOpt_some_lt _ _ _ hi
          have hne := partialParts_ne_nil s ((partialParts s).getD i [])
            (getD_mem_of_lt _ i [] hlt)
          simpa [toUpperStr] using hne
        have e3 := partialStep3_of_state_ne (partialParts s) _ h2
        rw [e3, partialStep4_of_state_ne _ _ h2, partialStep2_streetName]

/-- Every result assembled by `tsBuild` satisfies the scoring-policy
contract. -/
theorem tsBuild_scoring (original : Str) (sn sname city state zip : Option Str)
    (cs : List Str) :
    scoringPolicySpec (tsBuild original sn sname city state zip cs) := by
  unfold scoringPolicySpec tsBuild calculateConfidence tsStatusOf
  dsimp only
  exact ⟨_, rfl, rfl, rfl⟩

/-- C3: for every input that survives tokenization, the scoring
variant's confidence is 0.9 minus 0.2/0.3/0.2/0.2/0.1 for the absent
components minus 0.05 per correction note, clamped to [0.1, 1.0] and
rounded to two decimals, and the status is `unverifiable` when the
clamped confidence is below 0.3 or street name and city are both
absent, else `corrected` when a note exists, else `valid`. -/
theorem claim3_scoring_policy (s : Str)
    (h : fieldsBy (· == ' ') (normalizeAddress s) ≠ []) :
    scoringPolicySpec (tsValidateAddress s) := by
  unfold tsValidateAddress
  dsimp only
  rw [if_neg h]
  exact tsBuild_scoring _ _ _ _ _ _ _

/-- Witness for C3: the corrected-address example from the test
suite. -/
theorem claim3_witness :
    scoringPolicySpec
      (tsValidateAddress ("456 Oak St, Springfield, IL 62701".toList)) :=
  claim3_scoring_policy _ (by decide)

/-- Witness for C10: the fallback input `"12 oak NY"`, parsed to street
number 12, city "oak", state "NY". -/
theorem claim10_witness :
    (partialSample.state ≠ [] → partialSample.streetName = []) ∧
    ((∃ t ∈ partialParts ("12 oak NY".toList), isStateTok t = true) →
      partialSample.streetName = []) :=
  claim10_fallback_invariant ("12 oak NY".toList) partialSample (by decide)

/-!
Character-level case lemmas.  Abstract characters are settled by
splitting on whether the character occurs in `caseTable`; the letter
cases are then finite and decidable.
-/

/-- A character that is not an upper-case letter is `toLowerChar`-fixed. -/
theorem toLowerChar_eq_self (c : Char) (h : ∀ p ∈ caseTable, p.1 ≠ c) :
    toLowerChar c = c := by
  unfold toLowerChar
  rw [List.find?_eq_none.mpr (fun p hp => by simp [h p hp])]

/-- A character that is not a lower-case letter is `toUpperChar`-fixed. -/
theorem toUpperChar_eq_self (c : Char) (h : ∀ p ∈ caseTable, p.2 ≠ c) :
    toUpperChar c = c := by
  unfold toUpperChar
  rw [List.find?_eq_none.mpr (fun p hp => by simp [h p hp])]

/-- Lower-casing is idempotent. -/
theorem toLowerChar_toLowerChar (c : Char) :
    toLowerChar (toLowerChar c) = toLowerChar c := by
  by_cases hc : ∃ p ∈ caseTable, p.1 = c
  · obtain ⟨p, hp, hpc⟩ := hc
    subst hpc
    exact (by decide :
      ∀ p ∈ caseTable, toLowerChar (toLowerChar p.1) = toLowerChar p.1) p hp
  · push_neg at hc
    simp only [toLowerChar_eq_self c hc]

/-- Upper-casing is idempotent. -/
theorem toUpperChar_toUpperChar (c : Char) :
    toUpperChar (toUpperChar c) = toUpperChar c := by
  by_cases hc : ∃ p ∈ caseTable, p.2 = c
  · obtain ⟨p, hp, hpc⟩ := hc
    subst hpc
    exact (by decide :
      ∀ p ∈ caseTable, toUpperChar (toUpperChar p.2) = toUpperChar p.2) p hp
  · push_neg at hc
    simp only [toUpperChar_eq_self c hc]

/-- Lower-casing after upper-casing a lower-cased character gives the
lower-cased character back. -/
theorem toLowerChar_toUpperChar_toLowerChar (c : Char) :
    toLowerChar (toUpperChar (toLowerChar c)) = toLowerChar c := by
  by_cases hc : ∃ p ∈ caseTable, p.1 = c
  · obtain ⟨p, hp, hpc⟩ := hc
    subst hpc
    exact (by decide : ∀ p ∈ caseTable,
      toLowerChar (toUpperChar (toLowerChar p.1)) = toLowerChar p.1) p hp
  · push_neg at hc
    rw [toLowerChar_eq_self c hc]
    by_cases hc2 : ∃ p ∈ caseTable, p.2 = c
    · obtain ⟨p, hp, hpc⟩ := hc2
      subst hpc
      exact (by decide : ∀ p ∈ caseTable,
        toLowerChar (toUpperChar p.2) = p.2) p hp
    · push_neg at hc2
      rw [toUpperChar_eq_self c hc2, toLowerChar_eq_self c hc]

/-- Case mapping does not change whitespace-ness. -/
theorem isSpaceChar_toLowerChar (c : Char) :
    isSpaceChar (toLowerChar c) = isSpaceChar c := by
  by_cases hc : ∃ p ∈ caseTable, p.1 = c
  · obtain ⟨p, hp, hpc⟩ := hc
    subst hpc
    exact (by decide : ∀ p ∈ caseTable,
      isSpaceChar (toLowerChar p.1) = isSpaceChar p.1) p hp
  · push_neg at hc
    rw [toLowerChar_eq_self c hc]

/-- Case mapping does not change whitespace-ness. -/
theorem isSpaceChar_toUpperChar (c : Char) :
    isSpaceChar (toUpperChar c) = isSpaceChar c := by
  by_cases hc : ∃ p ∈ caseTable, p.2 = c
  · obtain ⟨p, hp, hpc⟩ := hc
    subst hpc
    exact (by decide : ∀ p ∈ caseTable,
      isSpaceChar (toUpperChar p.2) = isSpaceChar p.2) p hp
  · push_neg at hc
    rw [toUpperChar_eq_self c hc]

/-- Case mapping does not change word-character-ness. -/
theorem isWordChar_toLowerChar (c : Char) :
    isWordChar (toLowerChar c) = isWordChar c := by
  by_cases hc : ∃ p ∈ caseTable, p.1 = c
  · obtain ⟨p, hp, hpc⟩ := hc
    subst hpc
    exact (by decide : ∀ p ∈ caseTable,
      isWordChar (toLowerChar p.1) = isWordChar p.1) p hp
  · push_neg at hc
    rw [toLowerChar_eq_self c hc]

/-- Case mapping does not change word-character-ness. -/
theorem isWordChar_toUpperChar (c : Char) :
    isWordChar (toUpperChar c) = isWordChar c := by
  by_cases hc : ∃ p ∈ caseTable, p.2 = c
  · obtain ⟨p, hp, hpc⟩ := hc
    subst hpc
    exact (by decide : ∀ p ∈ caseTable,
      isWordChar (toUpperChar p.2) = isWordChar p.2) p hp
  · push_neg at hc
    rw [toUpperChar_eq_self c hc]

/-- A word character is not whitespace. -/
theorem not_isSpaceChar_of_isWordChar (c : Char) (h : isWordChar c = true) :
    isSpaceChar c = false := by
  by_contra hs
  rw [Bool.not_eq_false] at hs
  simp only [isSpaceChar, Bool.or_eq_true, decide_eq_true_eq] at hs
  rcases hs with ((((rfl | rfl) | rfl) | rfl) | rfl) | rfl <;>
    exact absurd h (by decide)

/-- A list mapped by a function that fixes each member is unchanged. -/
theorem map_eq_self_of_fixed (f : α → α) (l : List α) (h : ∀ c ∈ l, f c = c) :
    l.map f = l := by
  induction l with
  | nil => rfl
  | cons a t ih =>
    simp only [List.map_cons]
    rw [h a (by simp), ih (fun c hc => h c (by simp [hc]))]

/-- Members of a lower-cased string are lower-case-fixed. -/
theorem lower_fixed_of_mem (x : Str) (c : Char) (h : c ∈ toLowerStr x) :
    toLowerChar c = c := by
  obtain ⟨d, _, rfl⟩ := List.mem_map.mp h
  exact toLowerChar_toLowerChar d

/-- Members of an upper-cased string are upper-case-fixed. -/
theorem upper_fixed_of_mem (x : Str) (c : Char) (h : c ∈ toUpperStr x) :
    toUpperChar c = c := by
  obtain ⟨d, _, rfl⟩ := List.mem_map.mp h
  exact toUpperChar_toUpperChar d

/-- Lower-casing undoes `upFirst` on a lower-case-fixed word. -/
theorem toLowerStr_upFirst (w : Str) (h : ∀ c ∈ w, toLowerChar c = c) :
    toLowerStr (upFirst w) = w := by
  cases w with
  | nil => rfl
  | cons c t =>
    show toLowerChar (toUpperChar c) :: toLowerStr t = c :: t
    have hc := h c (by simp)
    rw [← hc, toLowerChar_toUpperChar_toLowerChar, hc]
    show c :: t.map toLowerChar = c :: t
    rw [map_eq_self_of_fixed _ t (fun d hd => h d (by simp [hd]))]

/-!
Structural lemmas on splitting, joining and trimming.
-/

/-- `splitBy` always yields at least one segment. -/
theorem splitBy_ne_nil (p : Char → Bool) (s : Str) : splitBy p s ≠ [] := by
  cases s with
  | nil => simp [splitBy]
  | cons c t =>
    rcases h : splitBy p t with _ | ⟨w, ws⟩
    · simp [splitBy, h]
    · simp only [splitBy, h]
      split <;> simp

/-- A separator character opens a new (empty) leading segment. -/
theorem splitBy_cons_sep (p : Char → Bool) (c : Char) (t : Str)
    (h : p c = true) : splitBy p (c :: t) = [] :: splitBy p t := by
  rcases hsp : splitBy p t with _ | ⟨w, ws⟩
  · exact absurd hsp (splitBy_ne_nil p t)
  · simp [splitBy, hsp, h]

/-- A prefix of non-separator characters extends the first segment. -/
theorem splitBy_append_word (p : Char → Bool) (w s : Str) (x : Str)
    (xs : List Str) (hw : ∀ c ∈ w, p c = false) (hs : splitBy p s = x :: xs) :
    splitBy p (w ++ s) = (w ++ x) :: xs := by
  induction w with
  | nil => simpa using hs
  | cons c w' ih =>
    have hc : p c = false := hw c (by simp)
    have ih' := ih (fun d hd => hw d (by simp [hd]))
    simp [splitBy, ih', hc]

/-- `joinWithSep` on two or more words, unfolded. -/
theorem joinSpace_cons_cons (w x : Str) (rest : List Str) :
    joinSpace (w :: x :: rest) = w ++ ' ' :: joinSpace (x :: rest) := by
  simp [joinSpace, joinWithSep]

/-- Splitting on spaces inverts joining with spaces. -/
theorem fieldsBy_joinSpace (p : Char → Bool) (hp : p ' ' = true)
    (ws : List Str) (h : ∀ w ∈ ws, w ≠ [] ∧ ∀ c ∈ w, p c = false) :
    fieldsBy p (joinSpace ws) = ws := by
  induction ws with
  | nil => simp [fieldsBy, joinSpace, joinWithSep, splitBy]
  | cons w rest ih =>
    obtain ⟨hne, hch⟩ := h w (by simp)
    cases rest with
    | nil =>
      have hw : splitBy p w = [w] := by
        have := splitBy_append_word p w [] [] [] hch (by simp [splitBy])
        simpa using this
      simp [fieldsBy, joinSpace, joinWithSep, hw, hne]
    | cons x rest' =>
      have hx : splitBy p (' ' :: joinSpace (x :: rest')) =
          [] :: splitBy p (joinSpace (x :: rest')) :=
        splitBy_cons_sep p ' ' _ hp
      have hsplit : splitBy p (w ++ ' ' :: joinSpace (x :: rest')) =
          (w ++ []) :: splitBy p (joinSpace (x :: rest')) :=
        splitBy_append_word p w _ _ _ hch hx
      have ih' := ih (fun v hv => h v (by simp [hv]))
      rw [joinSpace_cons_cons]
      unfold fieldsBy
      rw [hsplit]
      simp only [List.append_nil, List.filter_cons]
      rw [if_pos (by simpa using hne)]
      exact congrArg (List.cons w) ih'

/-- Segments contain no separator characters. -/
theorem splitBy_sep_false (p : Char → Bool) (s : Str) :
    ∀ w ∈ splitBy p s, ∀ c ∈ w, p c = false := by
  induction s with
  | nil =>
    intro w hw c hc
    simp [splitBy] at hw
    subst hw
    simp at hc
  | cons a t ih =>
    intro w hw c hc
    rcases hsp : splitBy p t with _ | ⟨x, xs⟩
    · exact absurd hsp (splitBy_ne_nil p t)
    · simp only [splitBy, hsp] at hw
      by_cases ha : p a
      · rw [if_pos ha] at hw
        rcases List.mem_cons.mp hw with rfl | hw2
        · simp at hc
        · exact ih w (hsp ▸ hw2) c hc
      · rw [if_neg ha] at hw
        rcases List.mem_cons.mp hw with rfl | hw2
        · rcases List.mem_cons.mp hc with rfl | hc2
          · simpa using ha
          · exact ih x (hsp ▸ (by simp)) c hc2
        · exact ih w (hsp ▸ (by simp [hw2])) c hc

/-- Segment characters come from the split string. -/
theorem splitBy_subset (p : Char → Bool) (s : Str) :
    ∀ w ∈ splitBy p s, ∀ c ∈ w, c ∈ s := by
  induction s with
  | nil =>
    intro w hw c hc
    simp [splitBy] at hw
    subst hw
    simp at hc
  | cons a t ih =>
    intro w hw c hc
    rcases hsp : splitBy p t with _ | ⟨x, xs⟩
    · exact absurd hsp (splitBy_ne_nil p t)
    · simp only [splitBy, hsp] at hw
      by_cases ha : p a
      · rw [if_pos ha] at hw
        rcases List.mem_cons.mp hw with rfl | hw2
        · simp at hc
        · exact List.mem_cons_of_mem a (ih w (hsp ▸ hw2) c hc)
      · rw [if_neg ha] at hw
        rcases List.mem_cons.mp hw with rfl | hw2
        · rcases List.mem_cons.mp hc with rfl | hc2
          · simp
          · exact List.mem_cons_of_mem a (ih x (hsp ▸ (by simp)) c hc2)
        · exact List.mem_cons_of_mem a (ih w (hsp ▸ (by simp [hw2])) c hc)

/-- Characters of the trimmed string come from the string. -/
theorem trim_subset (s : Str) : ∀ c ∈ trimStr s, c ∈ s := by
  intro c hc
  unfold trimStr at hc
  rw [List.mem_reverse] at hc
  have h1 := (List.dropWhile_sublist (l := (s.dropWhile isSpaceChar).reverse)
    (p := isSpaceChar)).mem hc
  rw [List.mem_reverse] at h1
  exact (List.dropWhile_sublist (l := s) (p := isSpaceChar)).mem h1

/-- Space-joined non-space words need no leading trim. -/
theorem dropWhile_joinSpace (ws : List Str)
    (h : ∀ w ∈ ws, w ≠ [] ∧ ∀ c ∈ w, isSpaceChar c = false) :
    (joinSpace ws).dropWhile isSpaceChar = joinSpace ws := by
  cases ws with
  | nil => rfl
  | cons w rest =>
    obtain ⟨hne, hch⟩ := h w (by simp)
    obtain ⟨c, w', rfl⟩ : ∃ c w', w = c :: w' := by
      cases w with
      | nil => exact absurd rfl hne
      | cons c w' => exact ⟨c, w', rfl⟩
    have hc : isSpaceChar c = false := hch c (by simp)
    cases rest with
    | nil => simp [joinSpace, joinWithSep, List.dropWhile_cons, hc]
    | cons x rest' =>
      rw [joinSpace_cons_cons]
      simp [List.dropWhile_cons, hc]

/-- Joining after appending one more word. -/
theorem joinSpace_append_singleton (l : List Str) (hl : l ≠ []) (y : Str) :
    joinSpace (l ++ [y]) = joinSpace l ++ ' ' :: y := by
  induction l with
  | nil => exact absurd rfl hl
  | cons a l' ih =>
    cases l' with
    | nil => simp [joinSpace, joinWithSep]
    | cons b l'' =>
      show joinSpace (a :: b :: (l'' ++ [y])) = _
      rw [joinSpace_cons_cons a b (l'' ++ [y])]
      show a ++ ' ' :: joinSpace ((b :: l'') ++ [y]) = _
      rw [ih (by simp), joinSpace_cons_cons a b l'']
      simp

/-- Reversing a space-join reverses the words and their order. -/
theorem joinSpace_reverse (ws : List Str) :
    (joinSpace ws).reverse = joinSpace (ws.reverse.map List.reverse) := by
  induction ws with
  | nil => rfl
  | cons w rest ih =>
    cases rest with
    | nil => simp [joinSpace, joinWithSep]
    | cons x rest' =>
      rw [joinSpace_cons_cons]
      have hne : ((x :: rest').reverse.map List.reverse) ≠ [] := by simp
      rw [show (w :: x :: rest').reverse.map List.reverse =
        ((x :: rest').reverse.map List.reverse) ++ [w.reverse] by simp]
      rw [joinSpace_append_singleton _ hne]
      rw [← ih]
      simp

/-- Space-joined non-space words are trim-fixed. -/
theorem trim_joinSpace (ws : List Str)
    (h : ∀ w ∈ ws, w ≠ [] ∧ ∀ c ∈ w, isSpaceChar c = false) :
    trimStr (joinSpace ws) = joinSpace ws := by
  have h2 : ∀ w ∈ ws.reverse.map List.reverse,
      w ≠ [] ∧ ∀ c ∈ w, isSpaceChar c = false := by
    intro w hw
    obtain ⟨v, hv, rfl⟩ := List.mem_map.mp hw
    obtain ⟨hne, hch⟩ := h v (List.mem_reverse.mp hv)
    exact ⟨by simpa using hne, fun c hc => hch c (List.mem_reverse.mp hc)⟩
  unfold trimStr
  rw [dropWhile_joinSpace ws h, joinSpace_reverse, dropWhile_joinSpace _ h2,
    ← joinSpace_reverse, List.reverse_reverse]

/-- Lower-casing distributes over a space-join. -/
theorem toLowerStr_joinSpace (ws : List Str) :
    toLowerStr (joinSpace ws) = joinSpace (ws.map toLowerStr) := by
  have hsp : toLowerChar ' ' = ' ' := by decide
  induction ws with
  | nil => rfl
  | cons w rest ih =>
    cases rest with
    | nil => rfl
    | cons x rest' =>
      rw [joinSpace_cons_cons]
      show (w ++ ' ' :: joinSpace (x :: rest')).map toLowerChar = _
      rw [List.map_append, List.map_cons, hsp]
      rw [show (w :: x :: rest').map toLowerStr =
        toLowerStr w :: toLowerStr x :: rest'.map toLowerStr from rfl]
      rw [joinSpace_cons_cons]
      rw [show (toLowerStr x :: rest'.map toLowerStr : List Str) =
        (x :: rest').map toLowerStr from rfl]
      rw [← ih]
      rfl

/-!
Word-run lemmas: `splitRuns` on a space-join of word-character words,
and the whole-word replacement pass over it.
-/

/-- One unfolding step of `splitRuns`. -/
theorem splitRuns_cons (c : Char) (t : Str) :
    splitRuns (c :: t) =
      (match splitRuns t with
      | (d :: w) :: ws =>
        if isWordChar c == isWordChar d then (c :: d :: w) :: ws
        else [c] :: (d :: w) :: ws
      | _ => [[c]]) := rfl

/-- The first run starts with the first character. -/
theorem splitRuns_head (c : Char) (t : Str) :
    ∃ r rs, splitRuns (c :: t) = (c :: r) :: rs := by
  rw [splitRuns_cons]
  rcases hsr : splitRuns t with _ | ⟨run, ws⟩
  · exact ⟨[], [], rfl⟩
  · cases run with
    | nil => exact ⟨[], [], rfl⟩
    | cons d w =>
      dsimp only
      by_cases hdw : (isWordChar c == isWordChar d) = true
      · exact ⟨d :: w, ws, by rw [if_pos hdw]⟩
      · exact ⟨[], (d :: w) :: ws, by rw [if_neg hdw]⟩

/-- A leading word-character run splits off as one run when what
follows is empty or starts with a non-word character. -/
theorem splitRuns_word_append (w s : Str) (hne : w ≠ [])
    (hw : ∀ c ∈ w, isWordChar c = true)
    (hs : s = [] ∨ ∃ d t, s = d :: t ∧ isWordChar d = false) :
    splitRuns (w ++ s) = w :: splitRuns s := by
  induction w with
  | nil => exact absurd rfl hne
  | cons c w' ih =>
    have hc : isWordChar c = true := hw c (by simp)
    cases w' with
    | nil =>
      rcases hs with rfl | ⟨d, t, rfl, hd⟩
      · rfl
      · obtain ⟨r, rs, hr⟩ := splitRuns_head d t
        show splitRuns (c :: d :: t) = [c] :: splitRuns (d :: t)
        rw [splitRuns_cons, hr]
        dsimp only
        rw [if_neg (by simp [hc, hd]), ← hr]
    | cons c2 w'' =>
      have ih' := ih (by simp) (fun d hd => hw d (by simp [hd]))
      show splitRuns (c :: ((c2 :: w'') ++ s)) = _
      rw [splitRuns_cons, ih']
      dsimp only
      rw [if_pos (by simp [hc, hw c2 (by simp)])]

/-- On a space-join of non-empty word-character words, the runs are the
words interleaved with single spaces. -/
theorem splitRuns_joinSpace (ws : List Str)
    (h : ∀ w ∈ ws, w ≠ [] ∧ ∀ c ∈ w, isWordChar c = true) :
    splitRuns (joinSpace ws) = interleaveSpace ws := by
  induction ws with
  | nil => rfl
  | cons w rest ih =>
    obtain ⟨hne, hch⟩ := h w (by simp)
    cases rest with
    | nil =>
      have := splitRuns_word_append w [] hne hch (Or.inl rfl)
      simpa using this
    | cons x rest' =>
      obtain ⟨hxne, hxch⟩ := h x (by simp)
      obtain ⟨hx, x', rfl⟩ : ∃ hx x', x = hx :: x' := by
        cases x with
        | nil => exact absurd rfl hxne
        | cons hx x' => exact ⟨hx, x', rfl⟩
      obtain ⟨t', ht'⟩ : ∃ t', joinSpace ((hx :: x') :: rest') = hx :: t' := by
        cases rest' with
        | nil => exact ⟨x', rfl⟩
        | cons y rest'' => exact ⟨x' ++ ' ' :: joinSpace (y :: rest''),
            by rw [joinSpace_cons_cons]; rfl⟩
      rw [joinSpace_cons_cons,
        splitRuns_word_append w (' ' :: joinSpace ((hx :: x') :: rest')) hne hch
          (Or.inr ⟨' ', _, rfl, by decide⟩)]
      rw [ht']
      obtain ⟨r, rs, hr⟩ := splitRuns_head hx t'
      have hhx : isWordChar hx = true := hxch hx (by simp)
      rw [splitRuns_cons (c := ' '), hr]
      dsimp only
      rw [if_neg (by simp [hhx, (by decide : isWordChar ' ' = false)]), ← hr,
        ← ht', ih (fun v hv => h v (by simp [hv]))]
      rfl

/-- On a non-empty word-character run the pass is the table lookup. -/
theorem replaceRun_eq_lookupWord (table : List (Str × Str)) (w : Str)
    (hne : w ≠ []) (hw : ∀ c ∈ w, isWordChar c = true) :
    replaceRun table w = lookupWord table w := by
  cases w with
  | nil => exact absurd rfl hne
  | cons c t =>
    unfold replaceRun
    dsimp only
    rw [if_pos (hw c (by simp))]

/-- Flattening the replaced interleaving is the space-join of the
looked-up words. -/
theorem flatten_replaceRun_interleave (table : List (Str × Str))
    (ws : List Str) (h : ∀ w ∈ ws, w ≠ [] ∧ ∀ c ∈ w, isWordChar c = true) :
    ((interleaveSpace ws).map (replaceRun table)).flatten =
      joinSpace (ws.map (lookupWord table)) := by
  induction ws with
  | nil => rfl
  | cons w rest ih =>
    obtain ⟨hne, hch⟩ := h w (by simp)
    cases rest with
    | nil =>
      show (replaceRun table w :: []).flatten = _
      rw [replaceRun_eq_lookupWord table w hne hch]
      simp [joinSpace, joinWithSep]
    | cons x rest' =>
      have ih' := ih (fun v hv => h v (by simp [hv]))
      show (replaceRun table w :: replaceRun table [' '] ::
        (interleaveSpace (x :: rest')).map (replaceRun table)).flatten = _
      rw [replaceRun_eq_lookupWord table w hne hch,
        (by rfl : replaceRun table [' '] = [' '])]
      rw [show ((w :: x :: rest').map (lookupWord table)) =
        lookupWord table w :: lookupWord table x :: rest'.map (lookupWord table)
        from rfl]
      rw [joinSpace_cons_cons]
      rw [show (lookupWord table x :: rest'.map (lookupWord table) : List Str) =
        (x :: rest').map (lookupWord table) from rfl]
      rw [← ih']
      simp

/-- The whole-word replacement pass on a space-join of word-character
words looks up each word. -/
theorem replaceWordRuns_joinSpace (table : List (Str × Str)) (ws : List Str)
    (h : ∀ w ∈ ws, w ≠ [] ∧ ∀ c ∈ w, isWordChar c = true) :
    replaceWordRuns table (joinSpace ws) =
      joinSpace (ws.map (lookupWord table)) := by
  unfold replaceWordRuns
  rw [splitRuns_joinSpace ws h, flatten_replaceRun_interleave table ws h]

/-- The values of the suffix table are non-empty words. -/
theorem suffixTable_vals :
    ∀ p ∈ suffixTable, p.2 ≠ [] ∧ ∀ c ∈ p.2, isWordChar c = true := by
  decide

/-- The values of the misspelling table are non-empty words. -/
theorem misspellTable_vals :
    ∀ p ∈ misspellTable, p.2 ≠ [] ∧ ∀ c ∈ p.2, isWordChar c = true := by
  decide

/-- Looking up keeps non-empty word-character words, when the table's
values are such. -/
theorem lookupWord_wf (table : List (Str × Str))
    (htab : ∀ p ∈ table, p.2 ≠ [] ∧ ∀ c ∈ p.2, isWordChar c = true)
    (w : Str) (hne : w ≠ []) (hw : ∀ c ∈ w, isWordChar c = true) :
    lookupWord table w ≠ [] ∧ ∀ c ∈ lookupWord table w, isWordChar c = true := by
  unfold lookupWord
  rcases hf : table.find? (fun p => eqFold w p.1) with _ | p
  · rw [hf]
    exact ⟨hne, hw⟩
  · rw [hf]
    exact htab p (List.mem_of_find?_eq_some hf)

/-!
Idempotence of the Go standardizer (claim C7): the per-field
standardizers, and the record-level assembly.
-/

/-- Dropping a while-prefix is a no-op on a list whose while-prefix was
already dropped, even after dropping a while-suffix. -/
theorem dropWhile_rdropWhile_self (p : Char → Bool) (l : Str)
    (h : l.dropWhile p = l) :
    (List.rdropWhile p l).dropWhile p = List.rdropWhile p l := by
  rcases hr : List.rdropWhile p l with _ | ⟨c, t⟩
  · rfl
  · obtain ⟨u, hu⟩ := List.rdropWhile_prefix p l
    rw [hr] at hu
    have hl : l = c :: (t ++ u) := by rw [← hu]; rfl
    have hc : p c = false := by
      by_contra hcc
      rw [Bool.not_eq_false] at hcc
      rw [hl, List.dropWhile_cons, if_pos hcc] at h
      have hlen := (List.dropWhile_sublist (p := p) (l := t ++ u)).length_le
      rw [h] at hlen
      simp only [List.length_cons] at hlen
      omega
    rw [List.dropWhile_cons, if_neg (by simp [hc])]

/-- Trimming is idempotent. -/
theorem trim_trim (s : Str) : trimStr (trimStr s) = trimStr s := by
  have hb : ∀ l : Str,
      trimStr l = List.rdropWhile isSpaceChar (l.dropWhile isSpaceChar) := by
    intro l
    rfl
  rw [hb, hb]
  rw [dropWhile_rdropWhile_self isSpaceChar (s.dropWhile isSpaceChar)
    (List.dropWhile_idempotent isSpaceChar s), List.rdropWhile_idempotent]

/-- `standardizeState` when the trimmed upper-cased value is a known
code. -/
theorem standardizeState_of_isSome (s : Str)
    (h : (lookupAssoc stateTable (trimStr (toUpperStr s))).isSome = true) :
    standardizeState s = trimStr (toUpperStr s) := by
  unfold standardizeState
  dsimp only
  rw [if_pos h]

/-- `standardizeState` when neither the code index nor the full-name
scan matches. -/
theorem standardizeState_of_none (s : Str)
    (h1 : ¬ (lookupAssoc stateTable (trimStr (toUpperStr s))).isSome = true)
    (h2 : stateTable.find? (fun p => eqFold (trimStr (toUpperStr s)) p.2) =
      none) :
    standardizeState s = trimStr (toUpperStr s) := by
  unfold standardizeState
  dsimp only
  rw [if_neg h1, h2]

/-- `standardizeState` when a full state name matches. -/
theorem standardizeState_of_find (s : Str) (q : Str × Str)
    (h1 : ¬ (lookupAssoc stateTable (trimStr (toUpperStr s))).isSome = true)
    (h2 : stateTable.find? (fun p => eqFold (trimStr (toUpperStr s)) p.2) =
      some q) :
    standardizeState s = q.1 := by
  unfold standardizeState
  dsimp only
  rw [if_neg h1, h2]

/-- Each known 2-letter code is a fixed point of `standardizeState`. -/
theorem stateTable_codes_fixed :
    ∀ p ∈ stateTable, standardizeState p.1 = p.1 := by
  decide

/-- State standardization is idempotent. -/
theorem standardizeState_idem (s : Str) :
    standardizeState (standardizeState s) = standardizeState s := by
  have hufix : ∀ c ∈ trimStr (toUpperStr s), toUpperChar c = c := fun c hc =>
    upper_fixed_of_mem s c (trim_subset (toUpperStr s) c hc)
  have huU : toUpperStr (trimStr (toUpperStr s)) = trimStr (toUpperStr s) :=
    map_eq_self_of_fixed toUpperChar _ hufix
  have hu : trimStr (toUpperStr (trimStr (toUpperStr s))) =
      trimStr (toUpperStr s) := by
    rw [huU, trim_trim]
  by_cases h1 : (lookupAssoc stateTable (trimStr (toUpperStr s))).isSome = true
  · rw [standardizeState_of_isSome s h1,
      standardizeState_of_isSome (trimStr (toUpperStr s))
        (by rw [hu]; exact h1)]
    exact hu
  · rcases hf : stateTable.find? (fun p => eqFold (trimStr (toUpperStr s)) p.2)
        with _ | q
    · rw [standardizeState_of_none s h1 hf,
        standardizeState_of_none (trimStr (toUpperStr s))
          (by rw [hu]; exact h1) (by rw [hu]; exact hf)]
      exact hu
    · rw [standardizeState_of_find s q h1 hf]
      exact stateTable_codes_fixed q (List.mem_of_find?_eq_some hf)

/-- City standardization is idempotent. -/
theorem standardizeCity_idem (s : Str) :
    standardizeCity (standardizeCity s) = standardizeCity s := by
  have hW : ∀ w ∈ fieldsBy isSpaceChar (toLowerStr (trimStr s)),
      w ≠ [] ∧ (∀ c ∈ w, isSpaceChar c = false) ∧
        (∀ c ∈ w, toLowerChar c = c) := by
    intro w hw
    have hne : w ≠ [] := fieldsBy_ne_nil isSpaceChar _ w hw
    have hmem := (List.mem_filter.mp hw).1
    refine ⟨hne, splitBy_sep_false isSpaceChar _ w hmem, ?_⟩
    intro c hc
    exact lower_fixed_of_mem (trimStr s) c
      (splitBy_subset isSpaceChar _ w hmem c hc)
  have hWup : ∀ w ∈ (fieldsBy isSpaceChar (toLowerStr (trimStr s))).map upFirst,
      w ≠ [] ∧ ∀ c ∈ w, isSpaceChar c = false := by
    intro w hw
    obtain ⟨v, hv, rfl⟩ := List.mem_map.mp hw
    obtain ⟨hne, hsp, -⟩ := hW v hv
    cases v with
    | nil => exact absurd rfl hne
    | cons c t =>
      refine ⟨by simp [upFirst], ?_⟩
      intro d hd
      rcases (by simpa [upFirst] using hd : d = toUpperChar c ∨ d ∈ t) with
        rfl | hdt
      · rw [isSpaceChar_toUpperChar]
        exact hsp c (by simp)
      · exact hsp d (by simp [hdt])
  have hWlow : ∀ w ∈ ((fieldsBy isSpaceChar (toLowerStr (trimStr s))).map
      upFirst).map toLowerStr, w ≠ [] ∧ ∀ c ∈ w, isSpaceChar c = false := by
    intro w hw
    obtain ⟨v, hv, rfl⟩ := List.mem_map.mp hw
    obtain ⟨hne, hsp⟩ := hWup v hv
    refine ⟨by simp [toLowerStr, hne], ?_⟩
    intro d hd
    obtain ⟨c, hc, rfl⟩ := List.mem_map.mp hd
    rw [isSpaceChar_toLowerChar]
    exact hsp c hc
  have e1 : standardizeCity s =
      joinSpace ((fieldsBy isSpaceChar (toLowerStr (trimStr s))).map
        upFirst) := rfl
  rw [e1]
  show joinSpace ((fieldsBy isSpaceChar (toLowerStr (trimStr (joinSpace
    ((fieldsBy isSpaceChar (toLowerStr (trimStr s))).map upFirst))))).map
      upFirst) = _
  rw [trim_joinSpace _ hWup, toLowerStr_joinSpace,
    fieldsBy_joinSpace isSpaceChar (by decide) _ hWlow, List.map_map]
  apply congrArg joinSpace
  apply map_eq_self_of_fixed
  intro v hv
  obtain ⟨w0, hw0, rfl⟩ := List.mem_map.mp hv
  obtain ⟨-, -, hfix⟩ := hW w0 hw0
  show upFirst (toLowerStr (upFirst w0)) = upFirst w0
  rw [toLowerStr_upFirst w0 hfix]

/-- Street-name words reachable by one title-case-then-replace pass are
fixed by the replacement pipeline of a second pass. -/
theorem streetWord_stable (lw : Str) (hfix : ∀ c ∈ lw, toLowerChar c = c) :
    lookupWord misspellTable (lookupWord suffixTable (upFirst (toLowerStr
      (lookupWord misspellTable (lookupWord suffixTable (upFirst lw)))))) =
      lookupWord misspellTable (lookupWord suffixTable (upFirst lw)) := by
  have hlow : toLowerStr (upFirst lw) = lw := toLowerStr_upFirst lw hfix
  rcases hf : suffixTable.find? (fun p => eqFold (upFirst lw) p.1) with _ | pf
  · have e1 : lookupWord suffixTable (upFirst lw) = upFirst lw := by
      unfold lookupWord
      rw [hf]
    rw [e1]
    rcases hg : misspellTable.find? (fun p => eqFold (upFirst lw) p.1)
        with _ | pm
    · have e2 : lookupWord misspellTable (upFirst lw) = upFirst lw := by
        unfold lookupWord
        rw [hg]
      rw [e2, hlow, e1, e2]
    · have e2 : lookupWord misspellTable (upFirst lw) = pm.2 := by
        unfold lookupWord
        rw [hg]
      rw [e2]
      exact (by decide : ∀ p ∈ misspellTable,
          lookupWord misspellTable (lookupWord suffixTable
            (upFirst (toLowerStr p.2))) = p.2)
        pm (List.mem_of_find?_eq_some hg)
  · have e1 : lookupWord suffixTable (upFirst lw) = pf.2 := by
      unfold lookupWord
      rw [hf]
    rw [e1]
    exact (by decide : ∀ p ∈ suffixTable,
        lookupWord misspellTable (lookupWord suffixTable (upFirst (toLowerStr
          (lookupWord misspellTable p.2)))) = lookupWord misspellTable p.2)
      pf (List.mem_of_find?_eq_some hf)

/-- A space-join of non-empty word-character words that are each fixed
by the per-word pipeline is fixed by `standardizeStreetName`. -/
theorem standardizeStreetName_fixed_words (vs : List Str)
    (hv : ∀ v ∈ vs, v ≠ [] ∧ ∀ c ∈ v, isWordChar c = true)
    (hstable : ∀ v ∈ vs, lookupWord misspellTable (lookupWord suffixTable
      (upFirst (toLowerStr v))) = v) :
    standardizeStreetName (joinSpace vs) = joinSpace vs := by
  have hsp : ∀ v ∈ vs, v ≠ [] ∧ ∀ c ∈ v, isSpaceChar c = false :=
    fun v hvv => ⟨(hv v hvv).1, fun c hc =>
      not_isSpaceChar_of_isWordChar c ((hv v hvv).2 c hc)⟩
  have hlow : ∀ v ∈ vs.map toLowerStr,
      v ≠ [] ∧ ∀ c ∈ v, isSpaceChar c = false := by
    intro v hvv
    obtain ⟨u, hu, rfl⟩ := List.mem_map.mp hvv
    obtain ⟨hne, hch⟩ := hsp u hu
    refine ⟨by simp [toLowerStr, hne], ?_⟩
    intro d hd
    obtain ⟨c, hc, rfl⟩ := List.mem_map.mp hd
    rw [isSpaceChar_toLowerChar]
    exact hch c hc
  have hup : ∀ w ∈ (vs.map toLowerStr).map upFirst,
      w ≠ [] ∧ ∀ c ∈ w, isWordChar c = true := by
    intro w hw
    obtain ⟨v, hvv, rfl⟩ := List.mem_map.mp hw
    obtain ⟨u, hu, rfl⟩ := List.mem_map.mp hvv
    obtain ⟨hne, hword⟩ := hv u hu
    have hlw : ∀ c ∈ toLowerStr u, isWordChar c = true := by
      intro c hc
      obtain ⟨d, hd, rfl⟩ := List.mem_map.mp hc
      rw [isWordChar_toLowerChar]
      exact hword d hd
    have hlne : toLowerStr u ≠ [] := by simp [toLowerStr, hne]
    cases hl : toLowerStr u with
    | nil => exact absurd hl hlne
    | cons c t =>
      refine ⟨by simp [upFirst], ?_⟩
      intro d hd
      rcases (by simpa [upFirst] using hd : d = toUpperChar c ∨ d ∈ t) with
        rfl | hdt
      · rw [isWordChar_toUpperChar]
        exact hlw c (by simp [hl])
      · exact hlw d (by simp [hl, hdt])
  have hupl : ∀ w ∈ ((vs.map toLowerStr).map upFirst).map
      (lookupWord suffixTable), w ≠ [] ∧ ∀ c ∈ w, isWordChar c = true := by
    intro w hw
    obtain ⟨u, hu, rfl⟩ := List.mem_map.mp hw
    obtain ⟨hne, hword⟩ := hup u hu
    exact lookupWord_wf suffixTable suffixTable_vals u hne hword
  show replaceWordRuns misspellTable (replaceWordRuns suffixTable
    (joinSpace ((fieldsBy isSpaceChar (toLowerStr (trimStr
      (joinSpace vs)))).map upFirst))) = joinSpace vs
  rw [trim_joinSpace vs hsp, toLowerStr_joinSpace,
    fieldsBy_joinSpace isSpaceChar (by decide) _ hlow]
  rw [replaceWordRuns_joinSpace suffixTable _ hup,
    replaceWordRuns_joinSpace misspellTable _ hupl]
  rw [List.map_map, List.map_map, List.map_map]
  apply congrArg joinSpace
  apply map_eq_self_of_fixed
  intro v hvv
  show lookupWord misspellTable (lookupWord suffixTable
    (upFirst (toLowerStr v))) = v
  exact hstable v hvv

/-- Street-name standardization is idempotent on strings of word
characters and whitespace. -/
theorem standardizeStreetName_idem (s : Str)
    (h : ∀ c ∈ s, isWordChar c = true ∨ isSpaceChar c = true) :
    standardizeStreetName (standardizeStreetName s) =
      standardizeStreetName s := by
  have hW : ∀ w ∈ fieldsBy isSpaceChar (toLowerStr (trimStr s)),
      w ≠ [] ∧ (∀ c ∈ w, isWordChar c = true) ∧
        (∀ c ∈ w, toLowerChar c = c) := by
    intro w hw
    have hne : w ≠ [] := fieldsBy_ne_nil isSpaceChar _ w hw
    have hmem := (List.mem_filter.mp hw).1
    have hsub := splitBy_subset isSpaceChar _ w hmem
    have hsep := splitBy_sep_false isSpaceChar _ w hmem
    refine ⟨hne, ?_,
      fun c hc => lower_fixed_of_mem (trimStr s) c (hsub c hc)⟩
    intro c hc
    obtain ⟨d, hd, rfl⟩ := List.mem_map.mp (hsub c hc)
    rcases h d (trim_subset s d hd) with hdw | hdsp
    · rw [isWordChar_toLowerChar]
      exact hdw
    · exact absurd (show isSpaceChar (toLowerChar d) = true by
          rw [isSpaceChar_toLowerChar]; exact hdsp)
        (by simp [hsep (toLowerChar d) hc])
  have hWs : ∀ w ∈ (fieldsBy isSpaceChar (toLowerStr (trimStr s))).map upFirst,
      w ≠ [] ∧ ∀ c ∈ w, isWordChar c = true := by
    intro w hw
    obtain ⟨v, hv, rfl⟩ := List.mem_map.mp hw
    obtain ⟨hne, hword, -⟩ := hW v hv
    cases v with
    | nil => exact absurd rfl hne
    | cons c t =>
      refine ⟨by simp [upFirst], ?_⟩
      intro d hd
      rcases (by simpa [upFirst] using hd : d = toUpperChar c ∨ d ∈ t) with
        rfl | hdt
      · rw [isWordChar_toUpperChar]
        exact hword c (by simp)
      · exact hword d (by simp [hdt])
  have hWlk : ∀ w ∈ ((fieldsBy isSpaceChar (toLowerStr (trimStr s))).map
      upFirst).map (lookupWord suffixTable),
      w ≠ [] ∧ ∀ c ∈ w, isWordChar c = true := by
    intro w hw
    obtain ⟨v, hv, rfl⟩ := List.mem_map.mp hw
    obtain ⟨hne, hword⟩ := hWs v hv
    exact lookupWord_wf suffixTable suffixTable_vals v hne hword
  have e1 : standardizeStreetName s =
      joinSpace ((((fieldsBy isSpaceChar (toLowerStr (trimStr s))).map
        upFirst).map (lookupWord suffixTable)).map
          (lookupWord misspellTable)) := by
    show replaceWordRuns misspellTable (replaceWordRuns suffixTable
      (joinSpace ((fieldsBy isSpaceChar (toLowerStr (trimStr s))).map
        upFirst))) = _
    rw [replaceWordRuns_joinSpace suffixTable _ hWs,
      replaceWordRuns_joinSpace misspellTable _ hWlk]
  rw [e1]
  apply standardizeStreetName_fixed_words
  · intro v hv
    obtain ⟨u, hu, rfl⟩ := List.mem_map.mp hv
    obtain ⟨w, hw, rfl⟩ := List.mem_map.mp hu
    obtain ⟨hne, hword⟩ := hWlk _ (List.mem_map_of_mem _ hw)
    exact lookupWord_wf misspellTable misspellTable_vals _ hne hword
  · intro v hv
    obtain ⟨u, hu, rfl⟩ := List.mem_map.mp hv
    obtain ⟨w, hw, rfl⟩ := List.mem_map.mp hu
    obtain ⟨lv, hlv, rfl⟩ := List.mem_map.mp hw
    exact streetWord_stable lv ((hW lv hlv).2.2)

/-- Field-wise extensionality for `GoAddr`. -/
theorem GoAddr_ext (x y : GoAddr)
    (h1 : x.streetNumber = y.streetNumber) (h2 : x.streetName = y.streetName)
    (h3 : x.unit = y.unit) (h4 : x.city = y.city) (h5 : x.state = y.state)
    (h6 : x.zipCode = y.zipCode) (h7 : x.zipPlus4 = y.zipPlus4)
    (h8 : x.county = y.county) (h9 : x.fullAddress = y.fullAddress) :
    x = y := by
  cases x
  cases y
  simp_all

/-- `buildFullAddress` reads only the component fields. -/
theorem buildFullAddress_congr (x y : GoAddr)
    (h1 : x.streetNumber = y.streetNumber) (h2 : x.streetName = y.streetName)
    (h3 : x.unit = y.unit) (h4 : x.city = y.city) (h5 : x.state = y.state)
    (h6 : x.zipCode = y.zipCode) (h7 : x.zipPlus4 = y.zipPlus4) :
    buildFullAddress x = buildFullAddress y := by
  unfold buildFullAddress
  dsimp only
  rw [h1, h2, h3, h4, h5, h6, h7]

/-- A record whose non-empty fields are fixed points of the per-field
standardizers and whose full address is already the rebuilt one is fixed
by `standardizeAddress`. -/
theorem standardizeAddress_fixed (r : GoAddr)
    (hs : r.streetName ≠ [] →
      standardizeStreetName r.streetName = r.streetName)
    (hc : r.city ≠ [] → standardizeCity r.city = r.city)
    (ht : r.state ≠ [] → standardizeState r.state = r.state)
    (hf : buildFullAddress r = r.fullAddress) :
    standardizeAddress r = r := by
  have e1 : (if r.streetName ≠ [] then standardizeStreetName r.streetName
      else r.streetName) = r.streetName := by
    by_cases h0 : r.streetName = []
    · rw [if_neg (not_not.mpr h0)]
    · rw [if_pos h0, hs h0]
  have e2 : (if r.city ≠ [] then standardizeCity r.city else r.city) =
      r.city := by
    by_cases h0 : r.city = []
    · rw [if_neg (not_not.mpr h0)]
    · rw [if_pos h0, hc h0]
  have e3 : (if r.state ≠ [] then standardizeState r.state else r.state) =
      r.state := by
    by_cases h0 : r.state = []
    · rw [if_neg (not_not.mpr h0)]
    · rw [if_pos h0, ht h0]
  apply GoAddr_ext
  · rfl
  · exact e1
  · rfl
  · exact e2
  · exact e3
  · rfl
  · rfl
  · rfl
  · show buildFullAddress { r with
      streetName := if r.streetName ≠ [] then
        standardizeStreetName r.streetName else r.streetName,
      city := if r.city ≠ [] then standardizeCity r.city else r.city,
      state := if r.state ≠ [] then standardizeState r.state else r.state } =
      r.fullAddress
    rw [← hf]
    exact buildFullAddress_congr _ r rfl e1 rfl e2 e3 rfl rfl

/-- C7 — corrected. Standardization of a parsed record is NOT idempotent
in general (see the counterexample on a hyphenated street name), but it
is idempotent whenever the street name consists of word characters and
whitespace only: the city, state and rebuilt full-address fields are
unconditionally stable, and title-casing with suffix expansion and
misspelling correction is a fixed point on such street names after the
first pass. -/
theorem claim7_standardize_idem (a : GoAddr)
    (h : ∀ c ∈ a.streetName, isWordChar c = true ∨ isSpaceChar c = true) :
    standardizeAddress (standardizeAddress a) = standardizeAddress a := by
  apply standardizeAddress_fixed
  · intro hne
    have e : (standardizeAddress a).streetName =
        (if a.streetName ≠ [] then standardizeStreetName a.streetName
         else a.streetName) := rfl
    rw [e] at hne ⊢
    by_cases h0 : a.streetName = []
    · rw [if_neg (not_not.mpr h0)] at hne
      exact absurd h0 hne
    · rw [if_pos h0] at hne ⊢
      exact standardizeStreetName_idem a.streetName h
  · intro hne
    have e : (standardizeAddress a).city =
        (if a.city ≠ [] then standardizeCity a.city else a.city) := rfl
    rw [e] at hne ⊢
    by_cases h0 : a.city = []
    · rw [if_neg (not_not.mpr h0)] at hne
      exact absurd h0 hne
    · rw [if_pos h0] at hne ⊢
      exact standardizeCity_idem a.city
  · intro hne
    have e : (standardizeAddress a).state =
        (if a.state ≠ [] then standardizeState a.state else a.state) := rfl
    rw [e] at hne ⊢
    by_cases h0 : a.state = []
    · rw [if_neg (not_not.mpr h0)] at hne
      exact absurd h0 hne
    · rw [if_pos h0] at hne ⊢
      exact standardizeState_idem a.state
  · exact buildFullAddress_congr (standardizeAddress a) _
      rfl rfl rfl rfl rfl rfl rfl

/-- Counterexample to C7 as stated: on the parsed record whose street
name is `"Main-St"`, a second standardization pass changes the record
again (`"Main-Street"` re-title-cases to `"Main-street"`), so
`standardize ∘ standardize ≠ standardize` in general. -/
theorem claim7_cx :
    standardizeAddress (standardizeAddress addrHyphenSt) ≠
      standardizeAddress addrHyphenSt := by
  decide

/-- Witness for the amended C7: a record with a plain word-and-space
street name is standardized idempotently. -/
theorem claim7_witness :
    standardizeAddress (standardizeAddress addrPlainSt) =
      standardizeAddress addrPlainSt :=
  claim7_standardize_idem addrPlainSt (by decide)

end AV
